import Mathlib

/-!
Shallow embedding of the RMQ.rs repository: the RMQ algorithm family
(`NoPreprocessing`, `Naive`, `SegmentTree`, `SparseTable`, `PlusMinus`),
the logarithm helpers from `log.rs`, and the tree / Euler-tour / LCA
reduction from `tree.rs`.  Arrays of `PartialOrd` elements are modelled
as `List Int` (the repository instantiates them at numeric types), and
indices as `Nat`.  All definitions are executable so that concrete
queries can be evaluated by `decide`.
-/

set_option maxHeartbeats 1000000
set_option maxRecDepth 10000

namespace RMQ

/-! ### `log.rs` -/

/-- Fuel-driven floor-log₂ recursion: `log2F fuel n` equals `⌊log₂ n⌋`
whenever `fuel` is large enough (`n ≤ fuel` suffices).  The fuel only
makes the recursion structural; it does not change any value used. -/
def log2F : Nat → Nat → Nat
  | 0, _ => 0
  | fuel + 1, n => if 2 ≤ n then log2F fuel (n / 2) + 1 else 0

/-- `log_f` from `log.rs`: the floor of log₂ of `n`, computed in Rust as
`(8 * size_of::<usize>() - 1) ^ (n | 1).leading_zeros()`, which equals
`⌊log₂ (n | 1)⌋` for every `usize` value.  We model it as the floor
log₂ of `n ||| 1` (so `log_f 0 = 0`). -/
def log_f (n : Nat) : Nat := log2F (n ||| 1) (n ||| 1)

/-- `n ||| 1` just forces the lowest bit on. -/
theorem lor_one_eq (n : Nat) : n ||| 1 = 2 * (n / 2) + 1 := by
  apply Nat.eq_of_testBit_eq
  intro k
  rw [Nat.testBit_lor]
  cases k with
  | zero => simp [Nat.testBit_zero]; omega
  | succ k =>
      rw [Nat.testBit_succ, Nat.testBit_succ, Nat.testBit_succ]
      have h2 : (2 * (n / 2) + 1) / 2 = n / 2 := by omega
      have h1 : (1 : Nat) / 2 = 0 := by norm_num
      rw [h2, h1, Nat.zero_testBit, Bool.or_false]

/-- The fueled floor-log₂ satisfies the defining bracket once the fuel
dominates the argument. -/
theorem log2F_bracket : ∀ fuel n, 1 ≤ n → n ≤ fuel →
    2 ^ log2F fuel n ≤ n ∧ n < 2 ^ (log2F fuel n + 1) := by
  intro fuel
  induction fuel with
  | zero => intro n h1 h2; omega
  | succ fuel ih =>
      intro n h1 h2
      by_cases h : 2 ≤ n
      · have hrec := ih (n / 2) (by omega) (by omega)
        simp only [log2F, if_pos h]
        constructor
        · have := hrec.1
          calc 2 ^ (log2F fuel (n / 2) + 1) = 2 * 2 ^ log2F fuel (n / 2) := by ring
          _ ≤ 2 * (n / 2) := by omega
          _ ≤ n := by omega
        · have := hrec.2
          calc n < 2 * (n / 2) + 2 := by omega
          _ ≤ 2 * 2 ^ (log2F fuel (n / 2) + 1) := by omega
          _ = 2 ^ (log2F fuel (n / 2) + 1 + 1) := by ring
      · simp only [log2F, if_neg h]
        omega

/-- Defining bracket of `log_f`: for `n ≥ 1`, `2 ^ log_f n ≤ n < 2 ^ (log_f n + 1)`. -/
theorem log_f_bracket {n : Nat} (h : 1 ≤ n) :
    2 ^ log_f n ≤ n ∧ n < 2 ^ (log_f n + 1) := by
  have hor := lor_one_eq n
  have hb := log2F_bracket (n ||| 1) (n ||| 1) (by omega) (le_refl _)
  unfold log_f
  rcases Nat.even_or_odd n with he | ho
  · obtain ⟨k, hk⟩ := he
    have hn : n ||| 1 = n + 1 := by omega
    rw [hn] at hb ⊢
    -- n is even, so the lower bound 2 ^ L ≤ n + 1 sharpens to 2 ^ L ≤ n
    -- (a power of two other than 1 is even, and n + 1 is odd).
    have hpow : log2F (n + 1) (n + 1) = 0 ∨
        ∃ m, 2 ^ log2F (n + 1) (n + 1) = 2 * m := by
      cases hL : log2F (n + 1) (n + 1) with
      | zero => exact Or.inl rfl
      | succ L' => exact Or.inr ⟨2 ^ L', by ring⟩
    constructor
    · rcases hpow with h0 | ⟨m, hm⟩
      · rw [h0]; simpa using h
      · omega
    · have h2 : 2 ^ (log2F (n + 1) (n + 1) + 1) =
          2 * 2 ^ log2F (n + 1) (n + 1) := by ring
      omega
  · have hodd : n % 2 = 1 := Nat.odd_iff.mp ho
    have hn : n ||| 1 = n := by omega
    rw [hn] at hb ⊢
    exact hb

/-- `log_f` is (essentially) characterized by its bracket. -/
theorem log_f_unique {n k : Nat} (h1 : 2 ^ k ≤ n) (h2 : n < 2 ^ (k + 1)) :
    log_f n = k := by
  have hn : 1 ≤ n := le_trans (Nat.one_le_two_pow) h1
  have hb := log_f_bracket hn
  rcases Nat.lt_trichotomy (log_f n) k with h | h | h
  · exfalso
    have : 2 ^ (log_f n + 1) ≤ 2 ^ k := Nat.pow_le_pow_right (by norm_num) (by omega)
    omega
  · exact h
  · exfalso
    have : 2 ^ (k + 1) ≤ 2 ^ log_f n := Nat.pow_le_pow_right (by norm_num) (by omega)
    omega

theorem log_f_zero : log_f 0 = 0 := by decide

/-- Monotone consequence used for the PlusMinus block-size analysis. -/
theorem log_f_ge_of_pow_le {k n : Nat} (h : 2 ^ k ≤ n) : k ≤ log_f n := by
  have hn : 1 ≤ n := le_trans (Nat.one_le_two_pow) h
  have hb := log_f_bracket hn
  by_contra hc
  have : 2 ^ k ≥ 2 ^ (log_f n + 1) := Nat.pow_le_pow_right (by norm_num) (by omega)
  omega

/-! ### `rmq/mod.rs` : `min_index` -/

/-- `min_index` from `rmq/mod.rs`: of two indices, the one holding the
smaller value; ties go to the second argument (`data[i] < data[j]` is a
strict comparison). -/
def min_index (data : List Int) (i j : Nat) : Nat :=
  if data.getD i 0 < data.getD j 0 then i else j

/-! ### Range-minimum specification predicates -/

/-- `m` is a position of a minimum value of `data` on the closed index
range `[i, j]`. -/
def IsMinIdx (data : List Int) (i j m : Nat) : Prop :=
  i ≤ m ∧ m ≤ j ∧ ∀ t ≤ j, i ≤ t → data.getD m 0 ≤ data.getD t 0

/-- `m` is the right-most position attaining the minimum of `data` on
the closed range `[i, j]`. -/
def IsRightmostMin (data : List Int) (i j m : Nat) : Prop :=
  IsMinIdx data i j m ∧ ∀ t ≤ j, i ≤ t → data.getD t 0 = data.getD m 0 → t ≤ m

instance (data : List Int) (i j m : Nat) : Decidable (IsMinIdx data i j m) := by
  unfold IsMinIdx; infer_instance

instance (data : List Int) (i j m : Nat) : Decidable (IsRightmostMin data i j m) := by
  unfold IsRightmostMin; infer_instance

theorem isRightmostMin_refl (data : List Int) (i : Nat) :
    IsRightmostMin data i i i := by
  refine ⟨⟨le_refl i, le_refl i, ?_⟩, ?_⟩
  · intro t ht hit
    have : t = i := le_antisymm ht hit
    rw [this]
  · intro t ht _ _
    exact ht

/-- Two minimum positions hold the same value. -/
theorem isMinIdx_value_eq {data : List Int} {i j m m' : Nat}
    (h : IsMinIdx data i j m) (h' : IsMinIdx data i j m') :
    data.getD m 0 = data.getD m' 0 :=
  le_antisymm (h.2.2 m' h'.2.1 h'.1) (h'.2.2 m h.2.1 h.1)

/-- Merging two right-most minima of overlapping, left-to-right ranges
with `min_index` yields the right-most minimum of the union.  The left
range is `[i, h1]`, the right range `[r, h2]`, they touch or overlap
(`r ≤ h1 + 1`) and the right range extends at least as far (`h1 ≤ h2`). -/
theorem rmin_merge {data : List Int} {i h1 r h2 x y : Nat}
    (hx : IsRightmostMin data i h1 x) (hy : IsRightmostMin data r h2 y)
    (hir : i ≤ r) (hrh : r ≤ h1 + 1) (hh : h1 ≤ h2) :
    IsRightmostMin data i h2 (min_index data x y) := by
  obtain ⟨⟨hxl, hxr, hxmin⟩, hxright⟩ := hx
  obtain ⟨⟨hyl, hyr, hymin⟩, hyright⟩ := hy
  unfold min_index
  by_cases hc : data.getD x 0 < data.getD y 0
  · rw [if_pos hc]
    -- every position in [r, h2] has value ≥ y > x, so x stays right-most
    refine ⟨⟨hxl, by omega, ?_⟩, ?_⟩
    · intro t ht hit
      by_cases htl : t ≤ h1
      · exact hxmin t htl hit
      · have := hymin t ht (by omega)
        omega
    · intro t ht hit hval
      by_cases htl : t ≤ h1
      · exact hxright t htl hit hval
      · exfalso
        have := hymin t ht (by omega)
        omega
  · rw [if_neg hc]
    push_neg at hc
    refine ⟨⟨by omega, hyr, ?_⟩, ?_⟩
    · intro t ht hit
      by_cases htl : t ≤ h1
      · have := hxmin t htl hit
        omega
      · exact hymin t ht (by omega)
    · intro t ht hit hval
      by_cases htr : r ≤ t
      · exact hyright t ht htr hval
      · -- t is only in the left range; x bounds it, and y ≥ r > t
        omega

/-! ### `rmq/no_preprocessing.rs` -/

/-- `NoPreprocessing::query`: a linear scan `for idx in (i+1)..=j`
accumulating with `min_index`, starting from the default minimum `i`. -/
def no_preprocessing_query (data : List Int) (i j : Nat) : Nat :=
  (List.range' (i + 1) (j - i)).foldl (fun m idx => min_index data m idx) i

/-- One accumulation step keeps the right-most minimum property. -/
theorem rmin_step {data : List Int} {i j m : Nat}
    (h : IsRightmostMin data i j m) :
    IsRightmostMin data i (j + 1) (min_index data m (j + 1)) :=
  rmin_merge h (isRightmostMin_refl data (j + 1)) (by
    have := h.1.1; have := h.1.2.1; omega) (by omega) (by omega)

theorem no_preprocessing_rightmost_aux (data : List Int) (i : Nat) :
    ∀ n, IsRightmostMin data i (i + n) (no_preprocessing_query data i (i + n)) := by
  intro n
  induction n with
  | zero => simpa [no_preprocessing_query] using isRightmostMin_refl data i
  | succ n ih =>
      unfold no_preprocessing_query at ih ⊢
      have h1 : i + n - i = n := by omega
      have h2 : i + (n + 1) - i = n + 1 := by omega
      rw [h1] at ih
      rw [h2, List.range'_concat, List.foldl_append]
      simp only [List.foldl_cons, List.foldl_nil]
      have h3 : i + 1 + 1 * n = (i + n) + 1 := by omega
      have h4 : i + (n + 1) = (i + n) + 1 := by omega
      rw [h3, h4]
      exact rmin_step ih

/-- `NoPreprocessing::query` returns the right-most minimum position of
the closed range `[i, j]`. -/
theorem no_preprocessing_rightmost (data : List Int) {i j : Nat} (hij : i ≤ j) :
    IsRightmostMin data i j (no_preprocessing_query data i j) := by
  have h := no_preprocessing_rightmost_aux data i (j - i)
  have : i + (j - i) = j := by omega
  rwa [this] at h

/-! ### `rmq/naive.rs` -/

/-- The `Naive` answer table in offset form: `naive_tableAux data i d`
is `table[i][i + d]` as filled by `Naive::process_data`, whose
recurrence is `table[i][i] = i` and
`table[i][j] = min_index(data, table[i][j-1], j)` for `j > i`. -/
def naive_tableAux (data : List Int) (i : Nat) : Nat → Nat
  | 0 => i
  | d + 1 => min_index data (naive_tableAux data i d) (i + d + 1)

/-- `Naive::query` reads `table[i][j]`; `process_data` mirrors entries
below the diagonal (`table[j][i] = table[i][j]`), which the `i ≤ j`
test reproduces. -/
def naive_query (data : List Int) (i j : Nat) : Nat :=
  if i ≤ j then naive_tableAux data i (j - i) else naive_tableAux data j (i - j)

theorem naive_tableAux_rightmost (data : List Int) (i : Nat) :
    ∀ d, IsRightmostMin data i (i + d) (naive_tableAux data i d) := by
  intro d
  induction d with
  | zero => simpa [naive_tableAux] using isRightmostMin_refl data i
  | succ d ih =>
      have h : i + d + 1 = (i + d) + 1 := by omega
      simpa [naive_tableAux, h] using rmin_step ih

/-- The `Naive` table entry holds the right-most minimum of `[i, j]`. -/
theorem naive_query_rightmost (data : List Int) {i j : Nat} (hij : i ≤ j) :
    IsRightmostMin data i j (naive_query data i j) := by
  have h := naive_tableAux_rightmost data i (j - i)
  have he : i + (j - i) = j := by omega
  rw [he] at h
  simpa [naive_query, hij] using h

/-! ### `rmq/sparse_table.rs` -/

/-- Row `k`, position `i` of the sparse table, as built by
`SparseTable::process_data`: row `0` is the identity and row `k+1`
combines row `k` at `i` and at `min(n - 1, i + 2^k)` with `min_index`
(`1 << (j - 1)` in the source is `2 ^ k` here). -/
def sparse_table (data : List Int) : Nat → Nat → Nat
  | 0, i => i
  | k + 1, i =>
      min_index data (sparse_table data k i)
        (sparse_table data k (min (data.length - 1) (i + 2 ^ k)))

/-- `SparseTable::query`: with `k = log_f (j - i)`, combine
`table[k][i]` and `table[k][j - (1 << k) + 1]`.  The second index is
written `j + 1 - 2 ^ k` here: in `usize` arithmetic
`j - (1 << k) + 1` wraps through `-1` when `j = 0, k = 0` and lands on
the same value `j + 1 - 2 ^ k` (one always has `2 ^ k ≤ j + 1`). -/
def sparse_query (data : List Int) (i j : Nat) : Nat :=
  min_index data (sparse_table data (log_f (j - i)) i)
    (sparse_table data (log_f (j - i)) (j + 1 - 2 ^ log_f (j - i)))

theorem min_index_self (data : List Int) (i : Nat) : min_index data i i = i := by
  unfold min_index
  split <;> rfl

/-- Invariant of the sparse table rows: `table[k][i]` is the right-most
minimum position of `data` on `[i, min(n-1, i + 2^k - 1)]`. -/
theorem sparse_table_rightmost (data : List Int) :
    ∀ k i, i < data.length →
      IsRightmostMin data i (min (data.length - 1) (i + 2 ^ k - 1))
        (sparse_table data k i) := by
  intro k
  induction k with
  | zero =>
      intro i hi
      have h : min (data.length - 1) (i + 2 ^ 0 - 1) = i := by
        simp only [pow_zero]; omega
      rw [h]
      exact isRightmostMin_refl data i
  | succ k ih =>
      intro i hi
      have h2 : 1 ≤ 2 ^ k := Nat.one_le_two_pow
      have hpow : 2 ^ (k + 1) = 2 * 2 ^ k := by ring
      have hr : min (data.length - 1) (i + 2 ^ k) < data.length := by omega
      have hx := ih i hi
      have hy := ih (min (data.length - 1) (i + 2 ^ k)) hr
      have hmerge := rmin_merge hx hy (by omega) (by omega) (by omega)
      have hH : min (data.length - 1)
          (min (data.length - 1) (i + 2 ^ k) + 2 ^ k - 1) =
          min (data.length - 1) (i + 2 ^ (k + 1) - 1) := by
        rw [hpow]; omega
      rw [hH] at hmerge
      simpa [sparse_table] using hmerge

/-- `SparseTable::query` returns the right-most minimum position of `[i, j]`. -/
theorem sparse_query_rightmost (data : List Int) {i j : Nat}
    (hij : i ≤ j) (hj : j < data.length) :
    IsRightmostMin data i j (sparse_query data i j) := by
  by_cases hd : j - i = 0
  · have hji : j = i := by omega
    subst hji
    have h0 : j - j = 0 := by omega
    unfold sparse_query
    rw [h0, log_f_zero]
    simp only [sparse_table, pow_zero]
    have : j + 1 - 1 = j := by omega
    rw [this, min_index_self]
    exact isRightmostMin_refl data j
  · have hd1 : 1 ≤ j - i := by omega
    have hb := log_f_bracket hd1
    set k := log_f (j - i) with hk
    have h2 : 1 ≤ 2 ^ k := Nat.one_le_two_pow
    have hpow : 2 ^ (k + 1) = 2 * 2 ^ k := by ring
    have hi : i < data.length := by omega
    have hrlt : j + 1 - 2 ^ k < data.length := by omega
    have hx := sparse_table_rightmost data k i hi
    have hy := sparse_table_rightmost data k (j + 1 - 2 ^ k) hrlt
    have hy' : IsRightmostMin data (j + 1 - 2 ^ k) j
        (sparse_table data k (j + 1 - 2 ^ k)) := by
      have hEq : min (data.length - 1) (j + 1 - 2 ^ k + 2 ^ k - 1) = j := by omega
      rwa [hEq] at hy
    have hmerge := rmin_merge hx hy' (by omega) (by omega) (by omega)
    have hH : min (data.length - 1) (i + 2 ^ k - 1) ≤ j := by omega
    exact hmerge

/-! ### `rmq/segment_tree.rs` -/

/-- A segment-tree node (`Node` in `segment_tree.rs`): flat-array child
indices, the covered inclusive range `[fr_idx, to_idx]`, and the index
of the range's minimum.  `Node::new` initializes children to
`usize::MAX`. -/
structure Node where
  left : Nat
  right : Nat
  fr_idx : Nat
  to_idx : Nat
  min_idx : Nat
deriving DecidableEq, Repr

def USIZE_MAX : Nat := 2 ^ 64 - 1

def Node.new : Node := ⟨USIZE_MAX, USIZE_MAX, 0, 0, 0⟩

/-- The `tree_size` loop of `SegmentTree::process_data`:
`m + ⌈m/2⌉ + ⌈⌈m/2⌉/2⌉ + ⋯ + 1`.  The fuel argument only makes the
halving loop structural. -/
def tree_sizeF : Nat → Nat → Nat
  | 0, m => m
  | fuel + 1, m => if m ≤ 1 then m else m + tree_sizeF fuel ((m + 1) / 2)

def tree_size (m : Nat) : Nat := tree_sizeF m m

theorem tree_sizeF_congr : ∀ f1 f2 m, m ≤ f1 + 1 → m ≤ f2 + 1 →
    tree_sizeF f1 m = tree_sizeF f2 m := by
  intro f1
  induction f1 with
  | zero =>
      intro f2 m h1 h2
      match f2 with
      | 0 => rfl
      | f2 + 1 =>
          simp only [tree_sizeF]
          rw [if_pos (by omega)]
  | succ f1 ih =>
      intro f2 m h1 h2
      match f2 with
      | 0 =>
          simp only [tree_sizeF]
          rw [if_pos (by omega)]
      | f2 + 1 =>
          simp only [tree_sizeF]
          by_cases hm : m ≤ 1
          · rw [if_pos hm, if_pos hm]
          · rw [if_neg hm, if_neg hm, ih f2 ((m + 1) / 2) (by omega) (by omega)]

/-- Recurrence of the `tree_size` loop. -/
theorem tree_size_rec {m : Nat} (h : 2 ≤ m) :
    tree_size m = m + tree_size ((m + 1) / 2) := by
  unfold tree_size
  obtain ⟨m', rfl⟩ : ∃ m', m = m' + 1 := ⟨m - 1, by omega⟩
  simp only [tree_sizeF]
  rw [if_neg (by omega)]
  congr 1
  exact tree_sizeF_congr m' ((m' + 1 + 1) / 2) ((m' + 1 + 1) / 2) (by omega) (by omega)

theorem tree_size_le {m : Nat} : m ≤ tree_size m := by
  unfold tree_size
  cases m with
  | zero => simp [tree_sizeF]
  | succ m =>
      simp only [tree_sizeF]
      split <;> omega

theorem tree_size_one : tree_size 1 = 1 := by decide

/-- One build step of the layer loop in `SegmentTree::process_data`:
create the next layer from the previous one, whose first node sits at
flat position `q_start`.  Each new node adopts children `q_ptr` and
`q_ptr + 1` of the lower layer; a trailing unpaired child produces a
node copying its range and minimum (its `right` stays `usize::MAX`). -/
def mkLayer (data : List Int) : Nat → List Node → List Node
  | _, [] => []
  | q_start, [x] => [⟨q_start, USIZE_MAX, x.fr_idx, x.to_idx, x.min_idx⟩]
  | q_start, x :: y :: rest =>
      ⟨q_start, q_start + 1, x.fr_idx, y.to_idx,
        min_index data x.min_idx y.min_idx⟩ :: mkLayer data (q_start + 2) rest

/-- The outer layer loop: starting from the bottom layer at `q_start`,
repeatedly build the next layer until one root node remains.  The
accumulator keeps the already-finished lower layers so that the result
lists the layers top-down, each layer at its `q_start`. -/
def buildUp (data : List Int) : Nat → Nat → List Node → List Node → List Node
  | 0, _, layer, acc => layer ++ acc
  | fuel + 1, q_start, layer, acc =>
      if layer.length ≤ 1 then layer ++ acc
      else
        buildUp data fuel (q_start - (layer.length + 1) / 2)
          (mkLayer data q_start layer) (layer ++ acc)

/-- The bottom layer of leaves built by `SegmentTree::process_data`. -/
def bottom_layer (n : Nat) : List Node :=
  (List.range n).map fun i => ⟨USIZE_MAX, USIZE_MAX, i, i, i⟩

/-- The flat node array `tree` after `SegmentTree::process_data`. -/
def seg_tree (data : List Int) : List Node :=
  buildUp data data.length (tree_size data.length - data.length)
    (bottom_layer data.length) []

/-- Node lookup in a tree suffix `S` that starts at flat position `base`. -/
def seg_nodeS (S : List Node) (base p : Nat) : Node := S.getD (p - base) Node.new

/-- Node lookup in the full flat tree. -/
def seg_node (tree : List Node) (p : Nat) : Node := tree.getD p Node.new

theorem seg_nodeS_zero (tree : List Node) (p : Nat) :
    seg_nodeS tree 0 p = seg_node tree p := rfl

/-- Structural invariant of the flat segment tree: `CoversS data S base p fr hi`
states that, reading the tree through the suffix `S` placed at flat
position `base`, position `p` roots a well-formed subtree covering the
inclusive range `[fr, hi]`: children sit at strictly larger positions,
their ranges concatenate, minima compose through `min_index`, and
single-child nodes (produced only at the right edge of a layer) cover a
range ending at the last array position. -/
inductive CoversS (data : List Int) (S : List Node) (base : Nat) :
    Nat → Nat → Nat → Prop where
  | leaf (p fr : Nat) :
      base ≤ p → p < base + S.length →
      (seg_nodeS S base p).fr_idx = fr →
      (seg_nodeS S base p).to_idx = fr →
      (seg_nodeS S base p).min_idx = fr →
      CoversS data S base p fr fr
  | node (p fr mid hi : Nat) :
      base ≤ p → p < base + S.length →
      fr ≤ mid → mid < hi →
      (seg_nodeS S base p).fr_idx = fr →
      (seg_nodeS S base p).to_idx = hi →
      p < (seg_nodeS S base p).left →
      p < (seg_nodeS S base p).right →
      (seg_nodeS S base p).min_idx =
        min_index data (seg_nodeS S base (seg_nodeS S base p).left).min_idx
          (seg_nodeS S base (seg_nodeS S base p).right).min_idx →
      CoversS data S base (seg_nodeS S base p).left fr mid →
      CoversS data S base (seg_nodeS S base p).right (mid + 1) hi →
      CoversS data S base p fr hi
  | pass (p fr hi : Nat) :
      base ≤ p → p < base + S.length →
      fr ≤ hi → hi = data.length - 1 →
      (seg_nodeS S base p).fr_idx = fr →
      (seg_nodeS S base p).to_idx = hi →
      p < (seg_nodeS S base p).left →
      (seg_nodeS S base p).min_idx =
        (seg_nodeS S base (seg_nodeS S base p).left).min_idx →
      CoversS data S base (seg_nodeS S base p).left fr hi →
      CoversS data S base p fr hi

theorem coversS_fields {data : List Int} {S : List Node} {base p fr hi : Nat}
    (h : CoversS data S base p fr hi) :
    base ≤ p ∧ p < base + S.length ∧ fr ≤ hi ∧
      (seg_nodeS S base p).fr_idx = fr ∧ (seg_nodeS S base p).to_idx = hi := by
  cases h with
  | leaf p fr h1 h2 h3 h4 h5 => exact ⟨h1, h2, le_refl _, h3, h4⟩
  | node p fr mid hi h1 h2 h3 h4 h5 h6 _ _ _ _ _ => exact ⟨h1, h2, by omega, h5, h6⟩
  | pass p fr hi h1 h2 h3 _ h5 h6 _ _ _ => exact ⟨h1, h2, h3, h5, h6⟩

/-- The `min_idx` of a well-formed subtree is the right-most minimum of
its covered range. -/
theorem coversS_rmin {data : List Int} {S : List Node} {base : Nat} :
    ∀ {p fr hi : Nat}, CoversS data S base p fr hi →
      IsRightmostMin data fr hi (seg_nodeS S base p).min_idx := by
  intro p fr hi h
  induction h with
  | leaf p fr h1 h2 h3 h4 h5 =>
      rw [h5]; exact isRightmostMin_refl data fr
  | node p fr mid hi h1 h2 h3 h4 h5 h6 h7 h8 h9 hl hr ihl ihr =>
      rw [h9]
      exact rmin_merge ihl ihr (by omega) (by omega) (by omega)
  | pass p fr hi h1 h2 h3 h4 h5 h6 h7 h8 hl ihl =>
      rw [h8]; exact ihl

/-- `CoversS` facts survive prepending further (upper) layers in front of
the suffix, with the base position adjusted accordingly. -/
theorem coversS_prepend {data : List Int} {S X : List Node} {base : Nat}
    (hX : X.length ≤ base) :
    ∀ {p fr hi : Nat}, CoversS data S base p fr hi →
      CoversS data (X ++ S) (base - X.length) p fr hi := by
  have hnode : ∀ p, base ≤ p →
      seg_nodeS (X ++ S) (base - X.length) p = seg_nodeS S base p := by
    intro p hp
    unfold seg_nodeS
    have harith : p - (base - X.length) = X.length + (p - base) := by omega
    rw [harith,
      List.getD_append_right X S Node.new (X.length + (p - base)) (by omega)]
    congr 1
    omega
  intro p fr hi h
  induction h with
  | leaf p fr h1 h2 h3 h4 h5 =>
      exact CoversS.leaf p fr (by omega) (by simp; omega)
        (by rw [hnode p h1]; exact h3) (by rw [hnode p h1]; exact h4)
        (by rw [hnode p h1]; exact h5)
  | node p fr mid hi h1 h2 h3 h4 h5 h6 h7 h8 h9 hl hr ihl ihr =>
      have hlp : base ≤ (seg_nodeS S base p).left := le_trans h1 (le_of_lt h7)
      have hrp : base ≤ (seg_nodeS S base p).right := le_trans h1 (le_of_lt h8)
      refine CoversS.node p fr mid hi (by omega) (by simp; omega) h3 h4 ?_ ?_ ?_ ?_ ?_ ?_ ?_
      · rw [hnode p h1]; exact h5
      · rw [hnode p h1]; exact h6
      · rw [hnode p h1]; exact h7
      · rw [hnode p h1]; exact h8
      · rw [hnode p h1, hnode _ hlp, hnode _ hrp]; exact h9
      · rw [hnode p h1]; exact ihl
      · rw [hnode p h1]; exact ihr
  | pass p fr hi h1 h2 h3 h4 h5 h6 h7 h8 hl ihl =>
      have hlp : base ≤ (seg_nodeS S base p).left := le_trans h1 (le_of_lt h7)
      refine CoversS.pass p fr hi (by omega) (by simp; omega) h3 h4 ?_ ?_ ?_ ?_ ?_
      · rw [hnode p h1]; exact h5
      · rw [hnode p h1]; exact h6
      · rw [hnode p h1]; exact h7
      · rw [hnode p h1, hnode _ hlp]; exact h8
      · rw [hnode p h1]; exact ihl

/-- The nodes of a layer tile the inclusive range `[lo, hi]` from left
to right with contiguous sub-ranges. -/
def TilesFrom : List Node → Nat → Nat → Prop
  | [], lo, hi => lo = hi + 1
  | x :: rest, lo, hi =>
      x.fr_idx = lo ∧ lo ≤ x.to_idx ∧ x.to_idx ≤ hi ∧
        TilesFrom rest (x.to_idx + 1) hi

/-- Induction principle following the two-at-a-time recursion of the
layer-building inner loop. -/
theorem pair_induction {P : List Node → Prop} (h0 : P []) (h1 : ∀ x, P [x])
    (h2 : ∀ x y rest, P rest → P (x :: y :: rest)) : ∀ L, P L := by
  have key : ∀ L, P L ∧ ∀ z, P (z :: L) := by
    intro L
    induction L with
    | nil => exact ⟨h0, h1⟩
    | cons y rest ih => exact ⟨ih.2 y, fun z => h2 z y rest ih.1⟩
  exact fun L => (key L).1

theorem mkLayer_length (data : List Int) :
    ∀ L : List Node, ∀ q, (mkLayer data q L).length = (L.length + 1) / 2 := by
  apply pair_induction
  · intro q; rfl
  · intro x q; simp [mkLayer]
  · intro x y rest ih q
    simp only [mkLayer, List.length_cons, ih (q + 2)]
    omega

theorem mkLayer_getD_pair (data : List Int) :
    ∀ L : List Node, ∀ q t, 2 * t + 1 < L.length →
      (mkLayer data q L).getD t Node.new =
        ⟨q + 2 * t, q + 2 * t + 1, (L.getD (2 * t) Node.new).fr_idx,
          (L.getD (2 * t + 1) Node.new).to_idx,
          min_index data (L.getD (2 * t) Node.new).min_idx
            (L.getD (2 * t + 1) Node.new).min_idx⟩ := by
  apply pair_induction
  · intro q t ht; simp at ht
  · intro x q t ht; simp at ht
  · intro x y rest ih q t ht
    cases t with
    | zero => simp [mkLayer]
    | succ t =>
        have hlen : 2 * t + 1 < rest.length := by
          simp only [List.length_cons] at ht; omega
        have h2t : 2 * (t + 1) = (2 * t + 1) + 1 := by omega
        simp only [mkLayer, h2t, List.getD_cons_succ, ih (q + 2) t hlen]
        simp only [Node.mk.injEq]
        exact ⟨by omega, by omega, trivial, trivial, trivial⟩

theorem mkLayer_getD_odd (data : List Int) :
    ∀ L : List Node, ∀ q t, 2 * t + 1 = L.length →
      (mkLayer data q L).getD t Node.new =
        ⟨q + 2 * t, USIZE_MAX, (L.getD (2 * t) Node.new).fr_idx,
          (L.getD (2 * t) Node.new).to_idx,
          (L.getD (2 * t) Node.new).min_idx⟩ := by
  apply pair_induction
  · intro q t ht; simp at ht
  · intro x q t ht
    simp only [List.length_cons, List.length_nil] at ht
    have ht0 : t = 0 := by omega
    subst ht0
    simp [mkLayer]
  · intro x y rest ih q t ht
    simp only [List.length_cons] at ht
    cases t with
    | zero => omega
    | succ t =>
        have hlen : 2 * t + 1 = rest.length := by omega
        have h2t : 2 * (t + 1) = (2 * t + 1) + 1 := by omega
        simp only [mkLayer, h2t, List.getD_cons_succ, ih (q + 2) t hlen]
        simp only [Node.mk.injEq]
        exact ⟨by omega, trivial, trivial, trivial, trivial⟩

theorem mkLayer_tiles (data : List Int) :
    ∀ L : List Node, ∀ q lo hi, TilesFrom L lo hi →
      TilesFrom (mkLayer data q L) lo hi := by
  apply pair_induction
  · intro q lo hi h; exact h
  · intro x q lo hi h
    obtain ⟨h1, h2, h3, h4⟩ := h
    exact ⟨h1, h2, h3, h4⟩
  · intro x y rest ih q lo hi h
    obtain ⟨h1, h2, h3, h4⟩ := h
    obtain ⟨h5, h6, h7, h8⟩ := h4
    exact ⟨h1, (by omega : lo ≤ y.to_idx), h7, ih (q + 2) _ hi h8⟩

/-- Index-wise consequences of `TilesFrom`. -/
theorem tilesFrom_getD :
    ∀ L : List Node, ∀ lo hi, TilesFrom L lo hi →
      ∀ t, t < L.length →
        lo ≤ (L.getD t Node.new).fr_idx ∧
        (L.getD t Node.new).fr_idx ≤ (L.getD t Node.new).to_idx ∧
        (L.getD t Node.new).to_idx ≤ hi ∧
        (t + 1 < L.length →
          (L.getD (t + 1) Node.new).fr_idx = (L.getD t Node.new).to_idx + 1) ∧
        (t + 1 = L.length → (L.getD t Node.new).to_idx = hi) ∧
        (t = 0 → (L.getD t Node.new).fr_idx = lo) := by
  intro L
  induction L with
  | nil => intro lo hi h t ht; simp at ht
  | cons x rest ih =>
      intro lo hi h t ht
      obtain ⟨h1, h2, h3, h4⟩ := h
      cases t with
      | zero =>
          refine ⟨?_, ?_, ?_, ?_, ?_, ?_⟩
          · show lo ≤ x.fr_idx
            omega
          · show x.fr_idx ≤ x.to_idx
            omega
          · exact h3
          · intro hlt
            show (rest.getD 0 Node.new).fr_idx = x.to_idx + 1
            have hr := ih (x.to_idx + 1) hi h4 0 (by simpa using hlt)
            have h0 := hr.2.2.2.2.2 rfl
            omega
          · intro hone
            show x.to_idx = hi
            simp only [List.length_cons] at hone
            have hz : rest.length = 0 := by omega
            rw [List.length_eq_zero] at hz
            subst hz
            simpa [TilesFrom] using h4
          · intro _
            show x.fr_idx = lo
            omega
      | succ t =>
          simp only [List.length_cons] at ht
          have ihres := ih (x.to_idx + 1) hi h4 t (by omega)
          refine ⟨?_, ?_, ?_, ?_, ?_, ?_⟩
          · show lo ≤ (rest.getD t Node.new).fr_idx
            have := ihres.1
            omega
          · exact ihres.2.1
          · exact ihres.2.2.1
          · intro hlt
            exact ihres.2.2.2.1 (by simp only [List.length_cons] at hlt; omega)
          · intro hone
            exact ihres.2.2.2.2.1 (by simp only [List.length_cons] at hone; omega)
          · intro h0
            exact absurd h0 (Nat.succ_ne_zero t)

/-- Building one layer turns per-node subtree invariants of the lower
layer (sitting at flat position `q`) into per-node invariants of the new
layer (sitting at `q - ⌈|L|/2⌉`). -/
theorem mkLayer_layerCovers (data : List Int) (acc L : List Node) (q : Nat)
    (hq : (mkLayer data q L).length ≤ q)
    (hcov : ∀ t, t < L.length → CoversS data (L ++ acc) q (q + t)
        ((L.getD t Node.new).fr_idx) ((L.getD t Node.new).to_idx))
    (htiles : TilesFrom L 0 (data.length - 1)) :
    ∀ t, t < (mkLayer data q L).length →
      CoversS data (mkLayer data q L ++ (L ++ acc))
        (q - (mkLayer data q L).length)
        (q - (mkLayer data q L).length + t)
        (((mkLayer data q L).getD t Node.new).fr_idx)
        (((mkLayer data q L).getD t Node.new).to_idx) := by
  intro t ht
  have hclen : (mkLayer data q L).length = (L.length + 1) / 2 :=
    mkLayer_length data L q
  have ht2 : 2 * t < L.length := by omega
  have hlookup : seg_nodeS (mkLayer data q L ++ (L ++ acc))
      (q - (mkLayer data q L).length) (q - (mkLayer data q L).length + t) =
      (mkLayer data q L).getD t Node.new := by
    unfold seg_nodeS
    have h1 : q - (mkLayer data q L).length + t -
        (q - (mkLayer data q L).length) = t := by omega
    rw [h1, List.getD_append _ _ _ _ ht]
  have hlower : ∀ s, s < L.length →
      seg_nodeS (mkLayer data q L ++ (L ++ acc))
        (q - (mkLayer data q L).length) (q + s) = L.getD s Node.new := by
    intro s hs
    unfold seg_nodeS
    have h1 : q + s - (q - (mkLayer data q L).length) =
        (mkLayer data q L).length + s := by omega
    rw [h1, List.getD_append_right _ _ _ _ (by omega)]
    have h2 : (mkLayer data q L).length + s - (mkLayer data q L).length = s := by
      omega
    rw [h2, List.getD_append _ _ _ _ hs]
  have hprep : ∀ s, s < L.length →
      CoversS data (mkLayer data q L ++ (L ++ acc))
        (q - (mkLayer data q L).length) (q + s)
        ((L.getD s Node.new).fr_idx) ((L.getD s Node.new).to_idx) := by
    intro s hs
    exact coversS_prepend (X := mkLayer data q L) (by omega) (hcov s hs)
  have htl := tilesFrom_getD L 0 (data.length - 1) htiles
  by_cases hpair : 2 * t + 1 < L.length
  · -- paired node
    have hget := mkLayer_getD_pair data L q t hpair
    have hx := htl (2 * t) (by omega)
    have hy := htl (2 * t + 1) hpair
    have hmid : (L.getD (2 * t + 1) Node.new).fr_idx =
        (L.getD (2 * t) Node.new).to_idx + 1 := hx.2.2.2.1 hpair
    have hfrG : ((mkLayer data q L).getD t Node.new).fr_idx =
        (L.getD (2 * t) Node.new).fr_idx := by rw [hget]
    have htoG : ((mkLayer data q L).getD t Node.new).to_idx =
        (L.getD (2 * t + 1) Node.new).to_idx := by rw [hget]
    have hndl : (seg_nodeS (mkLayer data q L ++ (L ++ acc))
        (q - (mkLayer data q L).length)
        (q - (mkLayer data q L).length + t)).left = q + 2 * t := by
      rw [hlookup, hget]
    have hndr : (seg_nodeS (mkLayer data q L ++ (L ++ acc))
        (q - (mkLayer data q L).length)
        (q - (mkLayer data q L).length + t)).right = q + 2 * t + 1 := by
      rw [hlookup, hget]
    have hndm : (seg_nodeS (mkLayer data q L ++ (L ++ acc))
        (q - (mkLayer data q L).length)
        (q - (mkLayer data q L).length + t)).min_idx =
        min_index data (L.getD (2 * t) Node.new).min_idx
          (L.getD (2 * t + 1) Node.new).min_idx := by
      rw [hlookup, hget]
    have hndfr : (seg_nodeS (mkLayer data q L ++ (L ++ acc))
        (q - (mkLayer data q L).length)
        (q - (mkLayer data q L).length + t)).fr_idx =
        (L.getD (2 * t) Node.new).fr_idx := by
      rw [hlookup, hget]
    have hndto : (seg_nodeS (mkLayer data q L ++ (L ++ acc))
        (q - (mkLayer data q L).length)
        (q - (mkLayer data q L).length + t)).to_idx =
        (L.getD (2 * t + 1) Node.new).to_idx := by
      rw [hlookup, hget]
    rw [hfrG, htoG]
    refine CoversS.node _ _ ((L.getD (2 * t) Node.new).to_idx) _
      (by omega) ?_ hx.2.1 (by omega) hndfr hndto ?_ ?_ ?_ ?_ ?_
    · simp only [List.length_append]
      omega
    · rw [hndl]
      omega
    · rw [hndr]
      omega
    · have e : q + 2 * t + 1 = q + (2 * t + 1) := by omega
      rw [hndm, hndl, hndr, e, hlower (2 * t) (by omega),
        hlower (2 * t + 1) hpair]
    · rw [hndl]
      exact hprep (2 * t) (by omega)
    · rw [hndr]
      have h := hprep (2 * t + 1) hpair
      rwa [hmid] at h
  · -- unpaired trailing node
    have hodd : 2 * t + 1 = L.length := by omega
    have hget := mkLayer_getD_odd data L q t hodd
    have hx := htl (2 * t) (by omega)
    have hto : (L.getD (2 * t) Node.new).to_idx = data.length - 1 :=
      hx.2.2.2.2.1 (by omega)
    have hfrG : ((mkLayer data q L).getD t Node.new).fr_idx =
        (L.getD (2 * t) Node.new).fr_idx := by rw [hget]
    have htoG : ((mkLayer data q L).getD t Node.new).to_idx =
        (L.getD (2 * t) Node.new).to_idx := by rw [hget]
    have hndl : (seg_nodeS (mkLayer data q L ++ (L ++ acc))
        (q - (mkLayer data q L).length)
        (q - (mkLayer data q L).length + t)).left = q + 2 * t := by
      rw [hlookup, hget]
    have hndm : (seg_nodeS (mkLayer data q L ++ (L ++ acc))
        (q - (mkLayer data q L).length)
        (q - (mkLayer data q L).length + t)).min_idx =
        (L.getD (2 * t) Node.new).min_idx := by
      rw [hlookup, hget]
    have hndfr : (seg_nodeS (mkLayer data q L ++ (L ++ acc))
        (q - (mkLayer data q L).length)
        (q - (mkLayer data q L).length + t)).fr_idx =
        (L.getD (2 * t) Node.new).fr_idx := by
      rw [hlookup, hget]
    have hndto : (seg_nodeS (mkLayer data q L ++ (L ++ acc))
        (q - (mkLayer data q L).length)
        (q - (mkLayer data q L).length + t)).to_idx =
        (L.getD (2 * t) Node.new).to_idx := by
      rw [hlookup, hget]
    rw [hfrG, htoG]
    refine CoversS.pass _ _ _ (by omega) ?_ hx.2.1 hto hndfr hndto ?_ ?_ ?_
    · simp only [List.length_append]
      omega
    · rw [hndl]
      omega
    · rw [hndm, hndl, hlower (2 * t) (by omega)]
    · rw [hndl]
      exact hprep (2 * t) (by omega)

/-- Invariant of the outer layer loop: from a layer that tiles
`[0, n-1]`, sits at its correct flat position, and whose nodes all root
well-formed subtrees, the finished flat tree has a well-formed root at
position `0` covering `[0, n-1]`. -/
theorem buildUp_covers (data : List Int) :
    ∀ (fuel : Nat) (L acc : List Node) (q : Nat),
      1 ≤ L.length → L.length ≤ fuel + 1 →
      q = tree_size L.length - L.length →
      (∀ t, t < L.length → CoversS data (L ++ acc) q (q + t)
          ((L.getD t Node.new).fr_idx) ((L.getD t Node.new).to_idx)) →
      TilesFrom L 0 (data.length - 1) →
      CoversS data (buildUp data fuel q L acc) 0 0 0 (data.length - 1) := by
  intro fuel
  induction fuel with
  | zero =>
      intro L acc q h1 h2 hq hcov htiles
      have hlen : L.length = 1 := by omega
      simp only [buildUp]
      have h := hcov 0 (by omega)
      rw [hlen, tree_size_one] at hq
      have hq0 : q = 0 := by omega
      subst hq0
      obtain ⟨x, hx⟩ : ∃ x, L = [x] := by
        match L, hlen with
        | [x], _ => exact ⟨x, rfl⟩
      subst hx
      obtain ⟨hfr, hle, hhi, htail⟩ := htiles
      have hto : x.to_idx = data.length - 1 := by
        simp only [TilesFrom] at htail
        omega
      simpa [hfr, hto] using h
  | succ fuel ih =>
      intro L acc q h1 h2 hq hcov htiles
      by_cases hone : L.length ≤ 1
      · have hlen : L.length = 1 := by omega
        simp only [buildUp, if_pos hone]
        have h := hcov 0 (by omega)
        rw [hlen, tree_size_one] at hq
        have hq0 : q = 0 := by omega
        subst hq0
        obtain ⟨x, hx⟩ : ∃ x, L = [x] := by
          match L, hlen with
          | [x], _ => exact ⟨x, rfl⟩
        subst hx
        obtain ⟨hfr, hle, hhi, htail⟩ := htiles
        have hto : x.to_idx = data.length - 1 := by
          simp only [TilesFrom] at htail
          omega
        simpa [hfr, hto] using h
      · push_neg at hone
        simp only [buildUp, if_neg (by omega : ¬ L.length ≤ 1)]
        have hclen : (mkLayer data q L).length = (L.length + 1) / 2 :=
          mkLayer_length data L q
        have hts := tree_size_rec (m := L.length) (by omega)
        have htsle : (L.length + 1) / 2 ≤ tree_size ((L.length + 1) / 2) :=
          tree_size_le
        have hq' : q - (L.length + 1) / 2 =
            tree_size ((L.length + 1) / 2) - (L.length + 1) / 2 := by omega
        have hqge : (mkLayer data q L).length ≤ q := by omega
        apply ih (mkLayer data q L) (L ++ acc) (q - (L.length + 1) / 2)
          (by omega) (by omega) (by rw [hclen]; exact hq')
        · intro t ht
          have h := mkLayer_layerCovers data acc L q hqge hcov htiles t ht
          have he : q - (mkLayer data q L).length = q - (L.length + 1) / 2 := by
            omega
          rwa [he] at h
        · exact mkLayer_tiles data L q 0 (data.length - 1) htiles

theorem bottom_layer_length (n : Nat) : (bottom_layer n).length = n := by
  simp [bottom_layer]

theorem bottom_layer_getD {n t : Nat} (ht : t < n) :
    (bottom_layer n).getD t Node.new = ⟨USIZE_MAX, USIZE_MAX, t, t, t⟩ := by
  unfold bottom_layer
  rw [List.getD_eq_getElem?_getD, List.getElem?_eq_getElem (by simpa using ht)]
  simp

theorem range'_tiles :
    ∀ m k, 1 ≤ m →
      TilesFrom ((List.range' k m).map fun i =>
        (⟨USIZE_MAX, USIZE_MAX, i, i, i⟩ : Node)) k (k + m - 1) := by
  intro m
  induction m with
  | zero => intro k h; omega
  | succ m ih =>
      intro k h
      rw [List.range'_succ, List.map_cons]
      by_cases hm : m = 0
      · subst hm
        simp only [List.range'_zero, List.map_nil, TilesFrom]
        exact ⟨trivial, le_refl _, by omega, by omega⟩
      · have hrec := ih (k + 1) (by omega)
        have he : k + 1 + m - 1 = k + (m + 1) - 1 := by omega
        rw [he] at hrec
        simp only [TilesFrom]
        exact ⟨trivial, le_refl _, by omega, hrec⟩

theorem bottom_layer_tiles {n : Nat} (h : 1 ≤ n) :
    TilesFrom (bottom_layer n) 0 (n - 1) := by
  unfold bottom_layer
  rw [List.range_eq_range']
  simpa using range'_tiles n 0 h

/-- After `SegmentTree::process_data`, the root (flat position 0) of the
node array is a well-formed subtree covering the whole array. -/
theorem seg_tree_covers (data : List Int) (h : 1 ≤ data.length) :
    CoversS data (seg_tree data) 0 0 0 (data.length - 1) := by
  unfold seg_tree
  apply buildUp_covers data data.length (bottom_layer data.length) []
    (tree_size data.length - data.length)
  · rw [bottom_layer_length]; exact h
  · rw [bottom_layer_length]; omega
  · rw [bottom_layer_length]
  · intro t ht
    rw [bottom_layer_length] at ht
    have hb := bottom_layer_getD ht
    rw [hb]
    refine CoversS.leaf _ t (by omega) ?_ ?_ ?_ ?_
    · simp only [List.length_append, bottom_layer_length]
      omega
    · unfold seg_nodeS
      have he : tree_size data.length - data.length + t -
          (tree_size data.length - data.length) = t := by omega
      rw [he, List.getD_append _ _ _ _ (by rw [bottom_layer_length]; exact ht), hb]
    · unfold seg_nodeS
      have he : tree_size data.length - data.length + t -
          (tree_size data.length - data.length) = t := by omega
      rw [he, List.getD_append _ _ _ _ (by rw [bottom_layer_length]; exact ht), hb]
    · unfold seg_nodeS
      have he : tree_size data.length - data.length + t -
          (tree_size data.length - data.length) = t := by omega
      rw [he, List.getD_append _ _ _ _ (by rw [bottom_layer_length]; exact ht), hb]
  · exact bottom_layer_tiles h

/-- The `i`-side descent of `SegmentTree::query` (second loop): walk
down searching for the leaf of `i`, accumulating the minima of the
right children that are skipped over.  The fuel only bounds the loop;
`tree.length` steps always suffice on a well-formed tree. -/
def seg_iSide (data : List Int) (tree : List Node) (i : Nat) :
    Nat → Nat → Nat → Nat
  | 0, _, acc => acc
  | fuel + 1, p, acc =>
      let nd := seg_node tree p
      if nd.fr_idx = i then min_index data acc nd.min_idx
      else if i ≤ (seg_node tree nd.left).to_idx then
        seg_iSide data tree i fuel nd.left
          (min_index data acc (seg_node tree nd.right).min_idx)
      else seg_iSide data tree i fuel nd.right acc

/-- The `j`-side descent of `SegmentTree::query` (third loop): walk down
searching for the leaf of `j`, accumulating the minima of skipped left
children. -/
def seg_jSide (data : List Int) (tree : List Node) (j : Nat) :
    Nat → Nat → Nat → Nat
  | 0, _, acc => acc
  | fuel + 1, p, acc =>
      let nd := seg_node tree p
      if nd.to_idx = j then min_index data acc nd.min_idx
      else if j ≤ (seg_node tree nd.left).to_idx then
        seg_jSide data tree j fuel nd.left acc
      else
        seg_jSide data tree j fuel nd.right
          (min_index data acc (seg_node tree nd.left).min_idx)

/-- The first loop of `SegmentTree::query`: descend from the root while
`[i, j]` fits into one child; on an exact range match return that
node's minimum; when the paths to `i` and `j` split, run the two side
descents (with the accumulator started at `i`). -/
def seg_descend (data : List Int) (tree : List Node) (i j : Nat) :
    Nat → Nat → Nat
  | 0, _ => i
  | fuel + 1, p =>
      let nd := seg_node tree p
      if nd.fr_idx = i ∧ nd.to_idx = j then nd.min_idx
      else if j ≤ (seg_node tree nd.left).to_idx then
        seg_descend data tree i j fuel nd.left
      else if (seg_node tree nd.left).to_idx < i then
        seg_descend data tree i j fuel nd.right
      else
        seg_jSide data tree j fuel nd.right
          (seg_iSide data tree i fuel nd.left i)

/-- `SegmentTree::query`, starting at the root (flat position `0`). -/
def seg_query (data : List Int) (i j : Nat) : Nat :=
  seg_descend data (seg_tree data) i j (seg_tree data).length 0

theorem min_index_cases (data : List Int) (x y : Nat) :
    (min_index data x y = x ∧ data.getD x 0 ≤ data.getD y 0) ∨
      (min_index data x y = y ∧ data.getD y 0 ≤ data.getD x 0) := by
  unfold min_index
  split
  · left; constructor
    · rfl
    · omega
  · right; constructor
    · rfl
    · omega

theorem min_index_le_left (data : List Int) (x y : Nat) :
    data.getD (min_index data x y) 0 ≤ data.getD x 0 := by
  unfold min_index
  split <;> omega

theorem min_index_le_right (data : List Int) (x y : Nat) :
    data.getD (min_index data x y) 0 ≤ data.getD y 0 := by
  unfold min_index
  split <;> omega

theorem seg_iSide_correct (data : List Int) (tree : List Node) (i j : Nat)
    (hj : j ≤ data.length - 1) :
    ∀ {p fr hi : Nat}, CoversS data tree 0 p fr hi →
      fr ≤ i → i ≤ hi → hi < j →
      ∀ (fuel acc : Nat), i ≤ acc → acc ≤ j → tree.length - p ≤ fuel →
        i ≤ seg_iSide data tree i fuel p acc ∧
        seg_iSide data tree i fuel p acc ≤ j ∧
        data.getD (seg_iSide data tree i fuel p acc) 0 ≤ data.getD acc 0 ∧
        ∀ t ≤ hi, i ≤ t →
          data.getD (seg_iSide data tree i fuel p acc) 0 ≤ data.getD t 0 := by
  intro p fr hi hcov
  induction hcov with
  | leaf p fr h1 h2 h3 h4 h5 =>
      intro hfr hhi hltj fuel acc hacc1 hacc2 hfuel
      match fuel, hfuel with
      | fuel + 1, _ =>
          rw [seg_nodeS_zero] at h3 h4 h5
          have hcond : (seg_node tree p).fr_idx = i := by omega
          simp only [seg_iSide]
          rw [if_pos hcond, h5]
          rcases min_index_cases data acc fr with ⟨he, hle⟩ | ⟨he, hle⟩ <;>
            rw [he]
          · refine ⟨hacc1, hacc2, le_refl _, ?_⟩
            intro t ht hit
            have htt : t = fr := by omega
            rw [htt]
            exact hle
          · refine ⟨by omega, by omega, hle, ?_⟩
            intro t ht hit
            have htt : t = fr := by omega
            rw [htt]
      | 0, hfuel => omega
  | node p fr mid hi h1 h2 h3 h4 h5 h6 h7 h8 h9 hl hr ihl ihr =>
      intro hfr hhi hltj fuel acc hacc1 hacc2 hfuel
      simp only [seg_nodeS_zero] at h5 h6 h7 h8 h9 hl hr ihl ihr
      obtain ⟨hlb, hllen, _, hlfr, hlto⟩ := coversS_fields hl
      obtain ⟨hrb, hrlen, _, hrfr, hrto⟩ := coversS_fields hr
      simp only [seg_nodeS_zero] at hlto hrto hlfr hrfr
      match fuel, hfuel with
      | fuel + 1, hfuel =>
          simp only [seg_iSide]
          by_cases hbase : (seg_node tree p).fr_idx = i
          · rw [if_pos hbase]
            have hmin := coversS_rmin (CoversS.node p fr mid hi h1 h2 h3 h4
              h5 h6 h7 h8 h9 hl hr)
            rw [seg_nodeS_zero] at hmin
            obtain ⟨⟨hm1, hm2, hm3⟩, _⟩ := hmin
            rcases min_index_cases data acc (seg_node tree p).min_idx with
              ⟨he, hle⟩ | ⟨he, hle⟩ <;> rw [he]
            · refine ⟨hacc1, hacc2, le_refl _, ?_⟩
              intro t ht hit
              exact le_trans hle (hm3 t ht (by omega))
            · refine ⟨by omega, by omega, hle, ?_⟩
              intro t ht hit
              exact hm3 t ht (by omega)
          · rw [if_neg hbase, hlto]
            by_cases hside : i ≤ mid
            · rw [if_pos hside]
              have hrmin := coversS_rmin hr
              rw [seg_nodeS_zero] at hrmin
              obtain ⟨⟨hm1, hm2, hm3⟩, _⟩ := hrmin
              have hacc' :
                  i ≤ min_index data acc (seg_node tree (seg_node tree p).right).min_idx ∧
                  min_index data acc (seg_node tree (seg_node tree p).right).min_idx ≤ j := by
                rcases min_index_cases data acc
                  (seg_node tree (seg_node tree p).right).min_idx with
                  ⟨he, _⟩ | ⟨he, _⟩ <;> rw [he]
                · exact ⟨hacc1, hacc2⟩
                · exact ⟨by omega, by omega⟩
              have ih := ihl hfr hside (by omega) fuel
                (min_index data acc (seg_node tree (seg_node tree p).right).min_idx)
                hacc'.1 hacc'.2 (by omega)
              refine ⟨ih.1, ih.2.1, ?_, ?_⟩
              · exact le_trans ih.2.2.1 (min_index_le_left data acc _)
              · intro t ht hit
                by_cases htm : t ≤ mid
                · exact ih.2.2.2 t htm hit
                · exact le_trans ih.2.2.1
                    (le_trans (min_index_le_right data acc _)
                      (hm3 t ht (by omega)))
            · rw [if_neg hside]
              have ih := ihr (by omega) hhi hltj fuel
                acc hacc1 hacc2 (by omega)
              refine ⟨ih.1, ih.2.1, ih.2.2.1, ?_⟩
              intro t ht hit
              by_cases htm : t ≤ mid
              · omega
              · exact ih.2.2.2 t ht (by omega)
      | 0, hfuel =>
          exfalso
          omega
  | pass p fr hi h1 h2 h3 h4 h5 h6 h7 h8 hl ihl =>
      intro hfr hhi hltj fuel acc hacc1 hacc2 hfuel
      omega

theorem seg_jSide_correct (data : List Int) (tree : List Node) (i j : Nat) :
    ∀ {p fr hi : Nat}, CoversS data tree 0 p fr hi →
      fr ≤ j → j ≤ hi → i < fr →
      ∀ (fuel acc : Nat), i ≤ acc → acc ≤ j → tree.length - p ≤ fuel →
        i ≤ seg_jSide data tree j fuel p acc ∧
        seg_jSide data tree j fuel p acc ≤ j ∧
        data.getD (seg_jSide data tree j fuel p acc) 0 ≤ data.getD acc 0 ∧
        ∀ t ≤ j, fr ≤ t →
          data.getD (seg_jSide data tree j fuel p acc) 0 ≤ data.getD t 0 := by
  intro p fr hi hcov
  induction hcov with
  | leaf p fr h1 h2 h3 h4 h5 =>
      intro hfr hhi hltj fuel acc hacc1 hacc2 hfuel
      match fuel, hfuel with
      | fuel + 1, _ =>
          rw [seg_nodeS_zero] at h3 h4 h5
          have hcond : (seg_node tree p).to_idx = j := by omega
          simp only [seg_jSide]
          rw [if_pos hcond, h5]
          rcases min_index_cases data acc fr with ⟨he, hle⟩ | ⟨he, hle⟩ <;>
            rw [he]
          · refine ⟨hacc1, hacc2, le_refl _, ?_⟩
            intro t ht hit
            have htt : t = fr := by omega
            rw [htt]
            exact hle
          · refine ⟨by omega, by omega, hle, ?_⟩
            intro t ht hit
            have htt : t = fr := by omega
            rw [htt]
      | 0, hfuel => omega
  | node p fr mid hi h1 h2 h3 h4 h5 h6 h7 h8 h9 hl hr ihl ihr =>
      intro hfr hhi hltj fuel acc hacc1 hacc2 hfuel
      simp only [seg_nodeS_zero] at h5 h6 h7 h8 h9 hl hr ihl ihr
      obtain ⟨hlb, hllen, _, hlfr, hlto⟩ := coversS_fields hl
      obtain ⟨hrb, hrlen, _, hrfr, hrto⟩ := coversS_fields hr
      simp only [seg_nodeS_zero] at hlto hrto hlfr hrfr
      match fuel, hfuel with
      | fuel + 1, hfuel =>
          simp only [seg_jSide]
          by_cases hbase : (seg_node tree p).to_idx = j
          · rw [if_pos hbase]
            have hmin := coversS_rmin (CoversS.node p fr mid hi h1 h2 h3 h4
              h5 h6 h7 h8 h9 hl hr)
            rw [seg_nodeS_zero] at hmin
            obtain ⟨⟨hm1, hm2, hm3⟩, _⟩ := hmin
            have hji : j = hi := by omega
            rcases min_index_cases data acc (seg_node tree p).min_idx with
              ⟨he, hle⟩ | ⟨he, hle⟩ <;> rw [he]
            · refine ⟨hacc1, hacc2, le_refl _, ?_⟩
              intro t ht hit
              exact le_trans hle (hm3 t (by omega) hit)
            · refine ⟨by omega, by omega, hle, ?_⟩
              intro t ht hit
              exact hm3 t (by omega) hit
          · rw [if_neg hbase, hlto]
            have hjhi : j < hi := by omega
            by_cases hside : j ≤ mid
            · rw [if_pos hside]
              have ih := ihl hfr hside (by omega) fuel
                acc hacc1 hacc2 (by omega)
              refine ⟨ih.1, ih.2.1, ih.2.2.1, ?_⟩
              intro t ht hit
              exact ih.2.2.2 t ht hit
            · rw [if_neg hside]
              have hlmin := coversS_rmin hl
              rw [seg_nodeS_zero] at hlmin
              obtain ⟨⟨hm1, hm2, hm3⟩, _⟩ := hlmin
              have hacc' :
                  i ≤ min_index data acc (seg_node tree (seg_node tree p).left).min_idx ∧
                  min_index data acc (seg_node tree (seg_node tree p).left).min_idx ≤ j := by
                rcases min_index_cases data acc
                  (seg_node tree (seg_node tree p).left).min_idx with
                  ⟨he, _⟩ | ⟨he, _⟩ <;> rw [he]
                · exact ⟨hacc1, hacc2⟩
                · exact ⟨by omega, by omega⟩
              have ih := ihr (by omega) (by omega) (by omega) fuel
                (min_index data acc (seg_node tree (seg_node tree p).left).min_idx)
                hacc'.1 hacc'.2 (by omega)
              refine ⟨ih.1, ih.2.1, ?_, ?_⟩
              · exact le_trans ih.2.2.1 (min_index_le_left data acc _)
              · intro t ht hit
                by_cases htm : t ≤ mid
                · exact le_trans ih.2.2.1
                    (le_trans (min_index_le_right data acc _)
                      (hm3 t htm hit))
                · exact ih.2.2.2 t ht (by omega)
      | 0, hfuel =>
          exfalso
          omega
  | pass p fr hi h1 h2 h3 h4 h5 h6 h7 h8 hl ihl =>
      intro hfr hhi hltj fuel acc hacc1 hacc2 hfuel
      simp only [seg_nodeS_zero] at h5 h6 h7 h8 hl ihl
      obtain ⟨hlb, hllen, _, hlfr, hlto⟩ := coversS_fields hl
      simp only [seg_nodeS_zero] at hlto hlfr
      match fuel, hfuel with
      | fuel + 1, hfuel =>
          simp only [seg_jSide]
          by_cases hbase : (seg_node tree p).to_idx = j
          · rw [if_pos hbase]
            have hmin := coversS_rmin (CoversS.pass p fr hi h1 h2 h3 h4
              h5 h6 h7 h8 hl)
            simp only [seg_nodeS_zero] at hmin
            obtain ⟨⟨hm1, hm2, hm3⟩, _⟩ := hmin
            rcases min_index_cases data acc (seg_node tree p).min_idx with
              ⟨he, hle⟩ | ⟨he, hle⟩ <;> rw [he]
            · refine ⟨hacc1, hacc2, le_refl _, ?_⟩
              intro t ht hit
              exact le_trans hle (hm3 t (by omega) hit)
            · refine ⟨by omega, by omega, hle, ?_⟩
              intro t ht hit
              exact hm3 t (by omega) hit
          · rw [if_neg hbase, hlto]
            have hjlt : j ≤ hi := by omega
            rw [if_pos hjlt]
            exact ihl hfr hjlt hltj fuel acc hacc1 hacc2 (by omega)
      | 0, hfuel =>
          exfalso
          omega

theorem seg_descend_correct (data : List Int) (tree : List Node) (i j : Nat)
    (hij : i ≤ j) (hj : j ≤ data.length - 1) :
    ∀ {p fr hi : Nat}, CoversS data tree 0 p fr hi →
      fr ≤ i → j ≤ hi →
      ∀ {fuel : Nat}, tree.length - p ≤ fuel →
        IsMinIdx data i j (seg_descend data tree i j fuel p) := by
  intro p fr hi hcov
  induction hcov with
  | leaf p fr h1 h2 h3 h4 h5 =>
      intro hfr hhi fuel hfuel
      match fuel, hfuel with
      | fuel + 1, _ =>
          simp only [seg_nodeS_zero] at h3 h4 h5
          simp only [seg_descend]
          rw [if_pos ⟨by omega, by omega⟩, h5]
          refine ⟨by omega, by omega, ?_⟩
          intro t ht hit
          have htt : t = fr := by omega
          rw [htt]
      | 0, _ => omega
  | node p fr mid hi h1 h2 h3 h4 h5 h6 h7 h8 h9 hl hr ihl ihr =>
      intro hfr hhi fuel hfuel
      have hmin := coversS_rmin (CoversS.node p fr mid hi h1 h2 h3 h4
        h5 h6 h7 h8 h9 hl hr)
      simp only [seg_nodeS_zero] at h5 h6 h7 h8 h9 hl hr ihl ihr hmin
      obtain ⟨hlb, hllen, _, hlfr, hlto⟩ := coversS_fields hl
      simp only [seg_nodeS_zero] at hlfr hlto
      match fuel, hfuel with
      | fuel + 1, hfuel =>
          simp only [seg_descend]
          by_cases hbase : (seg_node tree p).fr_idx = i ∧
              (seg_node tree p).to_idx = j
          · rw [if_pos hbase]
            obtain ⟨⟨hm1, hm2, hm3⟩, _⟩ := hmin
            refine ⟨by omega, by omega, ?_⟩
            intro t ht hit
            exact hm3 t (by omega) (by omega)
          · rw [if_neg hbase, hlto]
            by_cases hcase1 : j ≤ mid
            · rw [if_pos hcase1]
              exact ihl hfr hcase1 (by omega)
            · rw [if_neg hcase1]
              by_cases hcase2 : mid < i
              · rw [if_pos hcase2]
                exact ihr (by omega) hhi (by omega)
              · rw [if_neg hcase2]
                push_neg at hcase1 hcase2
                have hi1 := seg_iSide_correct data tree i j hj hl hfr
                  hcase2 (by omega) fuel i
                  (le_refl i) hij (by omega)
                have hj1 := seg_jSide_correct data tree i j hr
                  (by omega) (by omega) (by omega) fuel
                  (seg_iSide data tree i fuel (seg_node tree p).left i)
                  hi1.1 hi1.2.1 (by omega)
                refine ⟨hj1.1, hj1.2.1, ?_⟩
                intro t ht hit
                by_cases htm : t ≤ mid
                · exact le_trans hj1.2.2.1 (hi1.2.2.2 t htm hit)
                · exact hj1.2.2.2 t ht (by omega)
      | 0, hfuel => omega
  | pass p fr hi h1 h2 h3 h4 h5 h6 h7 h8 hl ihl =>
      intro hfr hhi fuel hfuel
      have hmin := coversS_rmin (CoversS.pass p fr hi h1 h2 h3 h4
        h5 h6 h7 h8 hl)
      simp only [seg_nodeS_zero] at h5 h6 h7 h8 hl ihl hmin
      obtain ⟨hlb, hllen, _, hlfr, hlto⟩ := coversS_fields hl
      simp only [seg_nodeS_zero] at hlfr hlto
      match fuel, hfuel with
      | fuel + 1, hfuel =>
          simp only [seg_descend]
          by_cases hbase : (seg_node tree p).fr_idx = i ∧
              (seg_node tree p).to_idx = j
          · rw [if_pos hbase]
            obtain ⟨⟨hm1, hm2, hm3⟩, _⟩ := hmin
            refine ⟨by omega, by omega, ?_⟩
            intro t ht hit
            exact hm3 t (by omega) (by omega)
          · rw [if_neg hbase, hlto]
            rw [if_pos hhi]
            exact ihl hfr hhi (by omega)
      | 0, hfuel => omega

/-- `SegmentTree::query` returns a minimum position of `[i, j]`. -/
theorem seg_query_isMinIdx (data : List Int) {i j : Nat}
    (hij : i ≤ j) (hj : j < data.length) :
    IsMinIdx data i j (seg_query data i j) := by
  have hcov := seg_tree_covers data (by omega)
  exact seg_descend_correct data (seg_tree data) i j hij (by omega) hcov
    (by omega) (by omega) (by omega)

/-! ### Claim theorems for the oracle algorithms, SegmentTree and SparseTable -/

/-- **C1**: for every array and every valid query range
`0 ≤ i ≤ j < n`, the values at the indices returned by
`NoPreprocessing`, `Naive`, `SegmentTree` and `SparseTable` agree —
each query returns a position of the range minimum, so the stored
values are equal even though the positions may differ between tied
values. -/
theorem C1_cross_algorithm_value_equality (data : List Int) {i j : Nat}
    (hij : i ≤ j) (hj : j < data.length) :
    data.getD (no_preprocessing_query data i j) 0 =
      data.getD (naive_query data i j) 0 ∧
    data.getD (naive_query data i j) 0 = data.getD (seg_query data i j) 0 ∧
    data.getD (seg_query data i j) 0 = data.getD (sparse_query data i j) 0 := by
  have h1 := (no_preprocessing_rightmost data hij).1
  have h2 := (naive_query_rightmost data hij).1
  have h3 := seg_query_isMinIdx data hij hj
  have h4 := (sparse_query_rightmost data hij hj).1
  exact ⟨isMinIdx_value_eq h1 h2, isMinIdx_value_eq h2 h3,
    isMinIdx_value_eq h3 h4⟩

theorem C1_witness :
    ((0 : Nat) ≤ 2 ∧ 2 < ([5, 3, 4] : List Int).length) ∧
    (([5, 3, 4] : List Int).getD (no_preprocessing_query [5, 3, 4] 0 2) 0 =
        ([5, 3, 4] : List Int).getD (naive_query [5, 3, 4] 0 2) 0 ∧
      ([5, 3, 4] : List Int).getD (naive_query [5, 3, 4] 0 2) 0 =
        ([5, 3, 4] : List Int).getD (seg_query [5, 3, 4] 0 2) 0 ∧
      ([5, 3, 4] : List Int).getD (seg_query [5, 3, 4] 0 2) 0 =
        ([5, 3, 4] : List Int).getD (sparse_query [5, 3, 4] 0 2) 0) :=
  ⟨⟨by decide, by decide⟩,
    C1_cross_algorithm_value_equality [5, 3, 4] (by decide) (by decide)⟩

/-- **C3 (counterexample)**: on the tied array `[0, 0]`, `query(0, 1)`
returns index 1 in all four algorithms, not the lower tied index 0:
`min_index`'s strict `<` keeps its second argument on equal values. -/
theorem C3_counterexample :
    ([0, 0] : List Int).getD 0 0 = ([0, 0] : List Int).getD 1 0 ∧
    no_preprocessing_query [0, 0] 0 1 = 1 ∧
    naive_query [0, 0] 0 1 = 1 ∧
    seg_query [0, 0] 0 1 = 1 ∧
    sparse_query [0, 0] 0 1 = 1 := by decide

/-- **C3 (amended)**: `min_index`'s strict `<` comparison prefers its
second argument among equal values, so `NoPreprocessing`, `Naive` and
`SparseTable` return the highest (right-most) tied minimum index, while
`SegmentTree` returns some minimum position without a fixed tie
direction. -/
theorem C3_amended_tie_break (data : List Int) {i j : Nat}
    (hij : i ≤ j) (hj : j < data.length) :
    IsRightmostMin data i j (no_preprocessing_query data i j) ∧
    IsRightmostMin data i j (naive_query data i j) ∧
    IsRightmostMin data i j (sparse_query data i j) ∧
    IsMinIdx data i j (seg_query data i j) :=
  ⟨no_preprocessing_rightmost data hij, naive_query_rightmost data hij,
    sparse_query_rightmost data hij hj, seg_query_isMinIdx data hij hj⟩

theorem C3_amended_witness :
    ((0 : Nat) ≤ 3 ∧ 3 < ([7, 2, 2, 5] : List Int).length) ∧
    (IsRightmostMin [7, 2, 2, 5] 0 3 (no_preprocessing_query [7, 2, 2, 5] 0 3) ∧
      IsRightmostMin [7, 2, 2, 5] 0 3 (naive_query [7, 2, 2, 5] 0 3) ∧
      IsRightmostMin [7, 2, 2, 5] 0 3 (sparse_query [7, 2, 2, 5] 0 3) ∧
      IsMinIdx [7, 2, 2, 5] 0 3 (seg_query [7, 2, 2, 5] 0 3)) :=
  ⟨⟨by decide, by decide⟩,
    C3_amended_tie_break [7, 2, 2, 5] (by decide) (by decide)⟩

/-- **C7**: the `SparseTable` invariant: row 0 of the table is the
identity, `table[k][i]` is a position of the minimum of
`Array[i .. min(n, i + 2^k))` (written as the closed range
`[i, min(n-1, i + 2^k - 1)]`), and row `k+1` at position `i` is the
`min_index`-argmin of row `k` at `i` and at `min(n-1, i + 2^k)`. -/
theorem C7_sparse_table_invariant (data : List Int) (k i : Nat)
    (hi : i < data.length) :
    sparse_table data 0 i = i ∧
    IsMinIdx data i (min (data.length - 1) (i + 2 ^ k - 1))
      (sparse_table data k i) ∧
    sparse_table data (k + 1) i =
      min_index data (sparse_table data k i)
        (sparse_table data k (min (data.length - 1) (i + 2 ^ k))) :=
  ⟨rfl, (sparse_table_rightmost data k i hi).1, rfl⟩

theorem C7_witness :
    (0 : Nat) < ([4, 1, 3] : List Int).length ∧
    (sparse_table [4, 1, 3] 0 0 = 0 ∧
      IsMinIdx [4, 1, 3] 0 (min (([4, 1, 3] : List Int).length - 1) (0 + 2 ^ 1 - 1))
        (sparse_table [4, 1, 3] 1 0) ∧
      sparse_table [4, 1, 3] (1 + 1) 0 =
        min_index [4, 1, 3] (sparse_table [4, 1, 3] 1 0)
          (sparse_table [4, 1, 3] 1
            (min (([4, 1, 3] : List Int).length - 1) (0 + 2 ^ 1)))) :=
  ⟨by decide, C7_sparse_table_invariant [4, 1, 3] 1 0 (by decide)⟩

/-! ### `rmq/plus_minus.rs` -/

/-- The ±1 property: consecutive elements differ by exactly 1. -/
def PlusMinusProp (data : List Int) : Prop :=
  ∀ t < data.length, t + 1 < data.length →
    data.getD (t + 1) 0 - data.getD t 0 = 1 ∨
      data.getD t 0 - data.getD (t + 1) 0 = 1

instance (data : List Int) : Decidable (PlusMinusProp data) := by
  unfold PlusMinusProp; infer_instance

/-- The contents of block `b` of the data: `data[b*bs .. min(n, b*bs + bs))`. -/
def pm_slice (data : List Int) (bs b : Nat) : List Int :=
  (data.drop (b * bs)).take bs

/-- The block-minimum scan of `PlusMinus::process_data`: starting from
offset 0 as default minimum, take a later offset only on a strictly
smaller value (so the earliest minimum of the block is kept). -/
def lArgmin (xs : List Int) : Nat :=
  (List.range' 1 (xs.length - 1)).foldl
    (fun cur j => if xs.getD j 0 < xs.getD cur 0 then j else cur) 0

/-- Block classification of `PlusMinus::process_data`: scan the block's
consecutive pairs, shifting in bit 1 for a non-increasing step
(`a >= b`) and bit 0 otherwise. -/
def blockCls (xs : List Int) : Nat :=
  (List.range' 1 (xs.length - 1)).foldl
    (fun cls t =>
      if xs.getD t 0 ≤ xs.getD (t - 1) 0 then 2 * cls + 1 else 2 * cls) 0

/-- The per-class cache fill loop: classify the blocks in order and
store the first block of each class (its raw contents stand for the
`SparseTable` the source builds over them, since our `sparse_query` is
a function of the underlying data). -/
def pm_class_data (data : List Int) (bs count : Nat) :
    List (Option (List Int)) :=
  (List.range count).foldl
    (fun acc b =>
      let sl := pm_slice data bs b
      let cls := blockCls sl
      if (acc.getD cls none).isNone then acc.set cls (some sl) else acc)
    (List.replicate (2 ^ (bs - 1)) none)

/-- The state built by `PlusMinus::process_data`.  `table_data` is the
data of the inter-block `table_rmq` (the block minima `A'`);
`class_data` holds, per class, the data of the cached per-class
`SparseTable`. -/
structure PMState where
  block_size : Nat
  block_div : Nat
  block_mod : Nat
  block_min_idx : List Nat
  table_data : List Int
  block_cls : List Nat
  class_data : List (Option (List Int))

/-- `PlusMinus::process_data`: block size `2^k` with
`k = log_f (log_f n) - 1`, the per-block minima scan, the inter-block
`SparseTable` data, and the block classification with its class cache. -/
def pm_process (data : List Int) : PMState :=
  let n := data.length
  let k := log_f (log_f n) - 1
  let bs := 2 ^ k
  let count := ((n - 1) >>> k) + 1
  { block_size := bs
    block_div := k
    block_mod := bs - 1
    block_min_idx :=
      (List.range count).map fun b => b * bs + lArgmin (pm_slice data bs b)
    table_data :=
      (List.range count).map fun b =>
        (pm_slice data bs b).getD (lArgmin (pm_slice data bs b)) 0
    block_cls := (List.range count).map fun b => blockCls (pm_slice data bs b)
    class_data := pm_class_data data bs count }

/-- `PlusMinus::in_block_min`: look up the block's class, query the
class's cached `SparseTable`, and offset by the block start. -/
def pm_in_block_min (st : PMState) (b i j : Nat) : Nat :=
  let cls := st.block_cls.getD b 0
  let rdata := (st.class_data.getD cls none).getD []
  b * st.block_size + sparse_query rdata i j

/-- `PlusMinus::query`: split `i`, `j` into block index (shift by
`block_div`) and in-block offset (mask by `block_mod`); same block → one
in-block query; otherwise combine the tail of block `i_b`, the head of
block `j_b`, and — for non-adjacent blocks — the inter-block
`SparseTable` over the block minima. -/
def pm_query (data : List Int) (st : PMState) (i j : Nat) : Nat :=
  let i_b := i >>> st.block_div
  let j_b := j >>> st.block_div
  let i_idx := i &&& st.block_mod
  let j_idx := j &&& st.block_mod
  if i_b = j_b then pm_in_block_min st i_b i_idx j_idx
  else
    let i_min := pm_in_block_min st i_b i_idx st.block_mod
    let j_min := pm_in_block_min st j_b 0 j_idx
    let ij_min := min_index data i_min j_min
    if i_b + 1 = j_b then ij_min
    else
      let b_idx := sparse_query st.table_data (i_b + 1) (j_b - 1)
      let b_min := st.block_min_idx.getD b_idx 0
      min_index data ij_min b_min

theorem pm_process_block_div (data : List Int) :
    (pm_process data).block_div = log_f (log_f data.length) - 1 := rfl

theorem pm_process_block_size (data : List Int) :
    (pm_process data).block_size = 2 ^ (log_f (log_f data.length) - 1) := rfl

theorem pm_process_block_mod (data : List Int) :
    (pm_process data).block_mod = 2 ^ (log_f (log_f data.length) - 1) - 1 := rfl

/-- Any singleton query on a sparse table returns its own index, for any
underlying data (`min_index data i i = i` needs no bounds). -/
theorem sparse_query_self (xs : List Int) (t : Nat) :
    sparse_query xs t t = t := by
  unfold sparse_query
  rw [Nat.sub_self, log_f_zero]
  simp only [sparse_table, pow_zero]
  have h1 : t + 1 - 1 = t := by omega
  rw [h1, min_index_self]

/-- A ±1 array of length 258 exercising the partial last block: with
`n = 258` the block size is 4, so the last block `[3, 2]` is partial
(length 2).  Its class bits are `1`, which collides with the class of
the full first block `[1, 2, 3, 2]` (bits `001`): the short block's
steps match that block's step *suffix*, not its prefix. -/
def pm_partial_block_array : List Int :=
  [1, 2, 3, 2] ++ (List.replicate 63 ([1, 2, 1, 2] : List Int)).flatten ++ [3, 2]

/-- **C2 (failing input)**: on the ±1 array above, `PlusMinus` and
`SparseTable` disagree in value on the query `(256, 257)`:
`PlusMinus` answers index 256 (value 3) while `SparseTable` answers
index 257 (value 2). -/
theorem C2_plus_minus_sparse_disagree :
    PlusMinusProp pm_partial_block_array ∧
    pm_partial_block_array.length = 258 ∧
    pm_query pm_partial_block_array (pm_process pm_partial_block_array)
      256 257 = 256 ∧
    sparse_query pm_partial_block_array 256 257 = 257 ∧
    pm_partial_block_array.getD 256 0 = 3 ∧
    pm_partial_block_array.getD 257 0 = 2 := by decide

/-- **C4 (failing input)**: the range `(256, 257)` lies entirely inside
the partial last block (both endpoints shift to block index 64), the
block is classified with the same bit-encoding as full blocks, yet the
`PlusMinus` query answers index 256, which is *not* a minimum position
of the range: the partial block's class collides with a full block
whose step prefix differs from the partial block's steps. -/
theorem C4_partial_block_query_wrong :
    PlusMinusProp pm_partial_block_array ∧
    (pm_process pm_partial_block_array).block_size = 4 ∧
    pm_partial_block_array.length % 4 = 2 ∧
    256 >>> (pm_process pm_partial_block_array).block_div = 64 ∧
    257 >>> (pm_process pm_partial_block_array).block_div = 64 ∧
    ¬ IsMinIdx pm_partial_block_array 256 257
      (pm_query pm_partial_block_array (pm_process pm_partial_block_array)
        256 257) := by decide

/-- **C9**: a singleton query returns its own index, `query(i,i) = i`,
for `NoPreprocessing`, `Naive`, `SegmentTree`, `SparseTable` and — under
its ±1-property and size preconditions — `PlusMinus`. -/
theorem C9_singleton_query (data : List Int) {i : Nat} (hi : i < data.length) :
    no_preprocessing_query data i i = i ∧
    naive_query data i i = i ∧
    seg_query data i i = i ∧
    sparse_query data i i = i ∧
    (PlusMinusProp data → 4 ≤ data.length →
      pm_query data (pm_process data) i i = i) := by
  refine ⟨?_, ?_, ?_, sparse_query_self data i, ?_⟩
  · unfold no_preprocessing_query
    rw [Nat.sub_self]
    rfl
  · unfold naive_query
    rw [if_pos (le_refl i), Nat.sub_self]
    rfl
  · obtain ⟨h1, h2, _⟩ := seg_query_isMinIdx data (le_refl i) hi
    omega
  · intro _ _
    unfold pm_query pm_in_block_min
    rw [if_pos rfl]
    simp only [sparse_query_self]
    rw [pm_process_block_div, pm_process_block_size, pm_process_block_mod,
      Nat.shiftRight_eq_div_pow, Nat.and_pow_two_sub_one_eq_mod, Nat.mul_comm]
    exact Nat.div_add_mod i (2 ^ (log_f (log_f data.length) - 1))

theorem C9_witness :
    ((2 : Nat) < ([0, 1, 2, 1] : List Int).length) ∧
    (no_preprocessing_query [0, 1, 2, 1] 2 2 = 2 ∧
      naive_query [0, 1, 2, 1] 2 2 = 2 ∧
      seg_query [0, 1, 2, 1] 2 2 = 2 ∧
      sparse_query [0, 1, 2, 1] 2 2 = 2 ∧
      (PlusMinusProp [0, 1, 2, 1] → 4 ≤ ([0, 1, 2, 1] : List Int).length →
        pm_query [0, 1, 2, 1] (pm_process [0, 1, 2, 1]) 2 2 = 2)) :=
  ⟨by decide, C9_singleton_query [0, 1, 2, 1] (by decide)⟩

/-- **C10**: the block-size computation of `PlusMinus::process_data`
evaluates `log_f (log_f n) - 1` in `usize`.  For `n ≤ 3` the minuend
`log_f (log_f n)` is 0, so the subtraction underflows (a panic in debug
builds); for `n ≥ 4` the minuend is at least 1, the subtraction is
safe, and the block size is the positive power of two
`2 ^ (log_f (log_f n) - 1)`. -/
theorem C10_block_size_safety (data : List Int) :
    (data.length ≤ 3 → log_f (log_f data.length) = 0) ∧
    (4 ≤ data.length →
      1 ≤ log_f (log_f data.length) ∧
      (pm_process data).block_size = 2 ^ (log_f (log_f data.length) - 1) ∧
      0 < (pm_process data).block_size) := by
  constructor
  · intro h
    have hle : log_f data.length ≤ 1 := by
      rcases Nat.eq_zero_or_pos data.length with h0 | h1
      · rw [h0, log_f_zero]
        omega
      · by_contra hc
        have hb := (log_f_bracket h1).1
        have h2 : 2 ^ 2 ≤ 2 ^ log_f data.length :=
          Nat.pow_le_pow_right (by norm_num) (by omega)
        have h4 : (2 : Nat) ^ 2 = 4 := by norm_num
        omega
    have h01 : log_f data.length = 0 ∨ log_f data.length = 1 := by omega
    rcases h01 with h01 | h01 <;> rw [h01] <;> decide
  · intro h
    have hl1 : 2 ≤ log_f data.length :=
      log_f_ge_of_pow_le (by norm_num; omega)
    have hl2 : 1 ≤ log_f (log_f data.length) :=
      log_f_ge_of_pow_le (by simpa using hl1)
    exact ⟨hl2, rfl, Nat.pos_pow_of_pos _ (by norm_num)⟩

theorem C10_witness :
    (([7, 7] : List Int).length ≤ 3 ∧
      log_f (log_f ([7, 7] : List Int).length) = 0) ∧
    (4 ≤ ([5, 6, 7, 8, 9] : List Int).length ∧
      1 ≤ log_f (log_f ([5, 6, 7, 8, 9] : List Int).length) ∧
      (pm_process [5, 6, 7, 8, 9]).block_size =
        2 ^ (log_f (log_f ([5, 6, 7, 8, 9] : List Int).length) - 1) ∧
      0 < (pm_process [5, 6, 7, 8, 9]).block_size) :=
  ⟨⟨by decide, (C10_block_size_safety [7, 7]).1 (by decide)⟩,
    ⟨by decide, (C10_block_size_safety [5, 6, 7, 8, 9]).2 (by decide)⟩⟩

/-! ### `tree.rs` -/

/-- The null-node sentinel (`NodeId::MAX` in `tree.rs`). -/
def NULL_NODE : Nat := USIZE_MAX

/-- `Tree::from_parents` derives the children adjacency by scanning the
nodes in increasing order and appending each non-root node to its
parent's list, so `childrenOf parents v` is the increasing list of
nodes whose parent entry is `v`. -/
def childrenOf (parents : List Nat) (v : Nat) : List Nat :=
  (List.range parents.length).filter fun u => parents.getD u NULL_NODE = v

/-- The root scan of `Tree::from_parents`: the last index holding the
null sentinel wins (valid parent arrays have exactly one). -/
def rootOf (parents : List Nat) : Nat :=
  (List.range parents.length).foldl
    (fun r u => if parents.getD u NULL_NODE = NULL_NODE then u else r)
    NULL_NODE

/-- The three arrays produced by `Tree::euler_tour`. -/
structure EulerTour where
  e : List Nat
  l : List Nat
  r : List Nat

/-- The mutable state of the iterative DFS in `Tree::euler_tour`:
the output arrays, the per-node child cursor `ch_idx`, and the explicit
stack (top at the head). -/
structure DfsState where
  e : List Nat
  l : List Nat
  r : List Nat
  ch : List Nat
  stack : List Nat

/-- The DFS loop of `Tree::euler_tour`: while the stack is non-empty,
record the top node `v` into `e`, the stack height into `l`, the
current position into `r[v]`, then either push `v`'s next unvisited
child (advancing `ch_idx[v]`) or pop.  The fuel only makes the loop
structural; `2n` iterations always complete the tour of a valid tree. -/
def dfs_run (parents : List Nat) : Nat → DfsState → DfsState
  | 0, s => s
  | fuel + 1, s =>
      match s.stack with
      | [] => s
      | v :: rest =>
          let c := s.ch.getD v 0
          if c < (childrenOf parents v).length then
            dfs_run parents fuel
              { e := s.e ++ [v], l := s.l ++ [s.stack.length],
                r := s.r.set v s.e.length,
                ch := s.ch.set v (c + 1),
                stack := (childrenOf parents v).getD c 0 :: v :: rest }
          else
            dfs_run parents fuel
              { e := s.e ++ [v], l := s.l ++ [s.stack.length],
                r := s.r.set v s.e.length,
                ch := s.ch, stack := rest }

/-- `Tree::euler_tour`, starting from the pushed root. -/
def euler_tour (parents : List Nat) : EulerTour :=
  let n := parents.length
  let final := dfs_run parents (2 * n)
    { e := [], l := [], r := List.replicate n 0,
      ch := List.replicate n 0, stack := [rootOf parents] }
  { e := final.e, l := final.l, r := final.r }

/-- **C5 (counterexample)**: for the parent array `[NULL, 0, 0]` the
Euler tour is `e = [0, 1, 0, 2, 0]`; the first visit of node 0 is at
index 0, yet `r[0] = 4` — the DFS assigns `r[v] = e.len()` on *every*
visit, so `r` holds the index of the last occurrence (as the field's
own doc comment in `tree.rs` says), not of the first visit. -/
theorem C5_counterexample :
    (euler_tour [NULL_NODE, 0, 0]).e = [0, 1, 0, 2, 0] ∧
    (euler_tour [NULL_NODE, 0, 0]).e.getD 0 0 = 0 ∧
    (euler_tour [NULL_NODE, 0, 0]).r.getD 0 0 = 4 ∧
    (4 : Nat) ≠ 0 := by decide

/-! ### `Lca` (`tree.rs`) -/

/-- `m` is a position of a minimum value of the `Nat`-valued sequence
`xs` on `[i, j]` — the contract an `Rmq<usize>` implementation must
satisfy for `Lca` (`Rmq` is generic over `PartialOrd`; `Lca` runs it
over the level array `l`). -/
def IsMinIdxN (xs : List Nat) (i j m : Nat) : Prop :=
  i ≤ m ∧ m ≤ j ∧ ∀ t ≤ j, i ≤ t → xs.getD m 0 ≤ xs.getD t 0

instance (xs : List Nat) (i j m : Nat) : Decidable (IsMinIdxN xs i j m) := by
  unfold IsMinIdxN; infer_instance

/-- The `Rmq<usize>` instantiation of `NoPreprocessing` (`min_index` at
element type `usize`), used to witness the `Lca` contract. -/
def min_indexN (xs : List Nat) (i j : Nat) : Nat :=
  if xs.getD i 0 < xs.getD j 0 then i else j

def no_preprocessing_queryN (xs : List Nat) (i j : Nat) : Nat :=
  (List.range' (i + 1) (j - i)).foldl (fun m idx => min_indexN xs m idx) i

/-- `Lca::query` over an abstract RMQ `q` run against the tour's level
array: `LCA(u, v) = e[q(min(r[u], r[v]), max(r[u], r[v]))]`. -/
def lca_query (parents : List Nat) (q : Nat → Nat → Nat) (u v : Nat) : Nat :=
  (euler_tour parents).e.getD
    (q (min ((euler_tour parents).r.getD u 0) ((euler_tour parents).r.getD v 0))
      (max ((euler_tour parents).r.getD u 0)
        ((euler_tour parents).r.getD v 0))) 0

/-- **C8**: on the tree with parents `[NULL, 0, 0, 1, 1]`, any RMQ
satisfying the argmin contract on the level array gives
`LCA(3,4) = 1`, `LCA(3,2) = 0` and `LCA(1,1) = 1`. -/
theorem C8_lca_parent_array (q : Nat → Nat → Nat)
    (hq : ∀ j, j < 9 → ∀ i, i ≤ j →
      IsMinIdxN (euler_tour [NULL_NODE, 0, 0, 1, 1]).l i j (q i j)) :
    lca_query [NULL_NODE, 0, 0, 1, 1] q 3 4 = 1 ∧
    lca_query [NULL_NODE, 0, 0, 1, 1] q 3 2 = 0 ∧
    lca_query [NULL_NODE, 0, 0, 1, 1] q 1 1 = 1 := by
  have hl : (euler_tour [NULL_NODE, 0, 0, 1, 1]).l =
      [1, 2, 3, 2, 3, 2, 1, 2, 1] := by decide
  have he : (euler_tour [NULL_NODE, 0, 0, 1, 1]).e =
      [0, 1, 3, 1, 4, 1, 0, 2, 0] := by decide
  have hr1 : (euler_tour [NULL_NODE, 0, 0, 1, 1]).r.getD 1 0 = 5 := by decide
  have hr2 : (euler_tour [NULL_NODE, 0, 0, 1, 1]).r.getD 2 0 = 7 := by decide
  have hr3 : (euler_tour [NULL_NODE, 0, 0, 1, 1]).r.getD 3 0 = 2 := by decide
  have hr4 : (euler_tour [NULL_NODE, 0, 0, 1, 1]).r.getD 4 0 = 4 := by decide
  refine ⟨?_, ?_, ?_⟩
  · -- LCA(3, 4): r-range [2, 4]; unique level minimum at tour index 3
    have h1 := hq 4 (by omega) 2 (by omega)
    rw [hl] at h1
    obtain ⟨ha, hb, hc⟩ := h1
    have hval := hc 3 (by omega) (by omega)
    have hm : q 2 4 = 2 ∨ q 2 4 = 3 ∨ q 2 4 = 4 := by omega
    have hm3 : q 2 4 = 3 := by
      rcases hm with h | h | h
      · rw [h] at hval; exact absurd hval (by decide)
      · exact h
      · rw [h] at hval; exact absurd hval (by decide)
    unfold lca_query
    rw [hr3, hr4, (by decide : min (2 : Nat) 4 = 2),
      (by decide : max (2 : Nat) 4 = 4), hm3, he]
    decide
  · -- LCA(3, 2): r-range [2, 7]; unique level minimum at tour index 6
    have h1 := hq 7 (by omega) 2 (by omega)
    rw [hl] at h1
    obtain ⟨ha, hb, hc⟩ := h1
    have hval := hc 6 (by omega) (by omega)
    have hm : q 2 7 = 2 ∨ q 2 7 = 3 ∨ q 2 7 = 4 ∨ q 2 7 = 5 ∨
        q 2 7 = 6 ∨ q 2 7 = 7 := by omega
    have hm6 : q 2 7 = 6 := by
      rcases hm with h | h | h | h | h | h
      · rw [h] at hval; exact absurd hval (by decide)
      · rw [h] at hval; exact absurd hval (by decide)
      · rw [h] at hval; exact absurd hval (by decide)
      · rw [h] at hval; exact absurd hval (by decide)
      · exact h
      · rw [h] at hval; exact absurd hval (by decide)
    unfold lca_query
    rw [hr3, hr2, (by decide : min (2 : Nat) 7 = 2),
      (by decide : max (2 : Nat) 7 = 7), hm6, he]
    decide
  · -- LCA(1, 1): singleton range at r[1] = 5
    have h1 := hq 5 (by omega) 5 (by omega)
    obtain ⟨ha, hb, _⟩ := h1
    have hm5 : q 5 5 = 5 := by omega
    unfold lca_query
    rw [hr1, (by decide : min (5 : Nat) 5 = 5),
      (by decide : max (5 : Nat) 5 = 5), hm5, he]
    decide

theorem C8_witness :
    (∀ j, j < 9 → ∀ i, i ≤ j →
      IsMinIdxN (euler_tour [NULL_NODE, 0, 0, 1, 1]).l i j
        (no_preprocessing_queryN (euler_tour [NULL_NODE, 0, 0, 1, 1]).l i j)) ∧
    (lca_query [NULL_NODE, 0, 0, 1, 1]
        (fun i j =>
          no_preprocessing_queryN (euler_tour [NULL_NODE, 0, 0, 1, 1]).l i j)
        3 4 = 1 ∧
      lca_query [NULL_NODE, 0, 0, 1, 1]
        (fun i j =>
          no_preprocessing_queryN (euler_tour [NULL_NODE, 0, 0, 1, 1]).l i j)
        3 2 = 0 ∧
      lca_query [NULL_NODE, 0, 0, 1, 1]
        (fun i j =>
          no_preprocessing_queryN (euler_tour [NULL_NODE, 0, 0, 1, 1]).l i j)
        1 1 = 1) :=
  ⟨by decide, C8_lca_parent_array _ (by decide)⟩

/-! ### Validity of parent arrays and subtree structure -/

/-- Iterated parent map: `parIter p k u` is `u`'s `k`-th ancestor. -/
def parIter (p : List Nat) : Nat → Nat → Nat
  | 0, u => u
  | k + 1, u => parIter p k (p.getD u NULL_NODE)

/-- A parent array is valid for a root `rt` and a depth function `d`
when exactly the root holds the null sentinel, every other node has an
in-range parent one depth level up, and the array is small enough for
the sentinel to be out of range.  This is the shape the repository's
tree generator produces and `Tree::from_parents` expects. -/
structure ValidParents (p : List Nat) (rt : Nat) (d : Nat → Nat) : Prop where
  root_lt : rt < p.length
  root_null : p.getD rt NULL_NODE = NULL_NODE
  root_depth : d rt = 0
  par_lt : ∀ u < p.length, u ≠ rt → p.getD u NULL_NODE < p.length
  par_depth : ∀ u < p.length, u ≠ rt → d u = d (p.getD u NULL_NODE) + 1
  null_unique : ∀ u < p.length, p.getD u NULL_NODE = NULL_NODE → u = rt
  len_lt_null : p.length < NULL_NODE

namespace ValidParents

variable {p : List Nat} {rt : Nat} {d : Nat → Nat}

theorem depth_pos {u : Nat} (V : ValidParents p rt d) (hu : u < p.length)
    (hne : u ≠ rt) : 1 ≤ d u := by
  rw [V.par_depth u hu hne]
  omega

theorem eq_root_of_depth_zero {u : Nat} (V : ValidParents p rt d)
    (hu : u < p.length) (hd : d u = 0) : u = rt := by
  by_contra hne
  have := V.depth_pos hu hne
  omega

/-- Along the parent chain, positions stay in range and the depth drops
by one per step. -/
theorem parIter_chain (V : ValidParents p rt d) :
    ∀ k u, u < p.length → k ≤ d u →
      parIter p k u < p.length ∧ d (parIter p k u) = d u - k := by
  intro k
  induction k with
  | zero => intro u hu _; exact ⟨hu, by simp [parIter]⟩
  | succ k ih =>
      intro u hu hk
      have hne : u ≠ rt := by
        intro h
        rw [h, V.root_depth] at hk
        omega
      have hp := V.par_lt u hu hne
      have hd := V.par_depth u hu hne
      have := ih (p.getD u NULL_NODE) hp (by omega)
      refine ⟨this.1, ?_⟩
      simp only [parIter]
      omega

/-- The outer form of the iteration: the `(k+1)`-st ancestor is the
parent of the `k`-th ancestor. -/
theorem parIter_succ_outer (V : ValidParents p rt d) :
    ∀ k u, u < p.length → k + 1 ≤ d u →
      parIter p (k + 1) u = p.getD (parIter p k u) NULL_NODE := by
  intro k
  induction k with
  | zero => intro u _ _; rfl
  | succ k ih =>
      intro u hu hk
      have hne : u ≠ rt := by
        intro h
        rw [h, V.root_depth] at hk
        omega
      have hp := V.par_lt u hu hne
      have hd := V.par_depth u hu hne
      show parIter p (k + 1) (p.getD u NULL_NODE) = _
      rw [ih (p.getD u NULL_NODE) hp (by omega)]
      rfl

/-- Every node reaches the root after `d u` parent steps. -/
theorem parIter_depth_root (V : ValidParents p rt d) :
    ∀ D u, u < p.length → d u ≤ D → parIter p (d u) u = rt := by
  intro D
  induction D with
  | zero =>
      intro u hu hd
      have h0 : d u = 0 := by omega
      have := V.eq_root_of_depth_zero hu h0
      rw [h0, this]
      rfl
  | succ D ih =>
      intro u hu hd
      by_cases h0 : d u = 0
      · have := V.eq_root_of_depth_zero hu h0
        rw [h0, this]
        rfl
      · have hne : u ≠ rt := by
          intro h
          rw [h, V.root_depth] at h0
          exact h0 rfl
        have hp := V.par_lt u hu hne
        have hdp := V.par_depth u hu hne
        have hrec := ih (p.getD u NULL_NODE) hp (by omega)
        have hstep : d u = d (p.getD u NULL_NODE) + 1 := hdp
        rw [hstep]
        show parIter p (d (p.getD u NULL_NODE)) (p.getD u NULL_NODE) = rt
        exact hrec

/-- Depths are bounded by `n - 1`: the parent chain visits `d u + 1`
distinct nodes. -/
theorem depth_lt (V : ValidParents p rt d) {u : Nat} (hu : u < p.length) :
    d u < p.length := by
  have hchain := V.parIter_chain
  have hnodup : (List.map (fun k => parIter p k u)
      (List.range (d u + 1))).Nodup := by
    refine List.Nodup.map_on ?_ (List.nodup_range _)
    intro x hx y hy hxy
    rw [List.mem_range] at hx hy
    have hdx := (hchain x u hu (by omega)).2
    have hdy := (hchain y u hu (by omega)).2
    rw [hxy] at hdx
    omega
  have hsub : (List.map (fun k => parIter p k u)
      (List.range (d u + 1))).toFinset ⊆ Finset.range p.length := by
    intro x hx
    rw [List.mem_toFinset, List.mem_map] at hx
    obtain ⟨k, hk, hkx⟩ := hx
    rw [List.mem_range] at hk
    rw [Finset.mem_range, ← hkx]
    exact (hchain k u hu (by omega)).1
  have hcard := Finset.card_le_card hsub
  rw [List.toFinset_card_of_nodup hnodup] at hcard
  simp only [List.length_map, List.length_range, Finset.card_range] at hcard
  omega

end ValidParents

/-- Membership in the derived children lists. -/
theorem mem_childrenOf {p : List Nat} {v u : Nat} :
    u ∈ childrenOf p v ↔ u < p.length ∧ p.getD u NULL_NODE = v := by
  unfold childrenOf
  rw [List.mem_filter, List.mem_range]
  simp

/-- `u` lies in the subtree of `v`: the parent chain from `u` passes
through `v` at the depth difference. -/
def inSub (p : List Nat) (d : Nat → Nat) (v u : Nat) : Prop :=
  d v ≤ d u ∧ parIter p (d u - d v) u = v

instance (p : List Nat) (d : Nat → Nat) (v u : Nat) :
    Decidable (inSub p d v u) := by
  unfold inSub
  infer_instance

namespace ValidParents

variable {p : List Nat} {rt : Nat} {d : Nat → Nat}

theorem inSub_refl (v : Nat) : inSub p d v v :=
  ⟨le_refl _, by rw [Nat.sub_self]; rfl⟩

theorem inSub_root (V : ValidParents p rt d) {u : Nat} (hu : u < p.length) :
    inSub p d rt u := by
  refine ⟨by rw [V.root_depth]; omega, ?_⟩
  rw [V.root_depth, Nat.sub_zero]
  exact V.parIter_depth_root (d u) u hu (le_refl _)

theorem inSub_child (V : ValidParents p rt d) {v c u : Nat}
    (hv : v < p.length) (hc : c ∈ childrenOf p v) (h : inSub p d c u)
    (hu : u < p.length) : inSub p d v u := by
  obtain ⟨hclt, hcp⟩ := mem_childrenOf.mp hc
  have hcne : c ≠ rt := by
    intro h0
    rw [h0, V.root_null] at hcp
    have := V.len_lt_null
    omega
  have hdc : d c = d v + 1 := by
    have := V.par_depth c hclt hcne
    rw [hcp] at this
    exact this
  obtain ⟨hd1, hp1⟩ := h
  refine ⟨by omega, ?_⟩
  have he : d u - d v = (d u - d c) + 1 := by omega
  rw [he, V.parIter_succ_outer (d u - d c) u hu (by omega), hp1, hcp]

/-- Inside a subtree, a proper descendant lies in the subtree of exactly
one child. -/
theorem inSub_step (V : ValidParents p rt d) {v u : Nat}
    (hv : v < p.length) (hu : u < p.length) (h : inSub p d v u)
    (hne : u ≠ v) :
    parIter p (d u - d v - 1) u ∈ childrenOf p v ∧
      inSub p d (parIter p (d u - d v - 1) u) u := by
  obtain ⟨hd1, hp1⟩ := h
  have hdne : d v < d u := by
    rcases Nat.lt_or_ge (d v) (d u) with h | h
    · exact h
    · exfalso
      have he : d u - d v = 0 := by omega
      rw [he] at hp1
      exact hne hp1
  have hcless := V.parIter_chain (d u - d v - 1) u hu (by omega)
  have houter := V.parIter_succ_outer (d u - d v - 1) u hu (by omega)
  rw [(by omega : d u - d v - 1 + 1 = d u - d v)] at houter
  have hpc : p.getD (parIter p (d u - d v - 1) u) NULL_NODE = v := by
    rw [← houter, hp1]
  refine ⟨mem_childrenOf.mpr ⟨hcless.1, hpc⟩, ?_, ?_⟩
  · omega
  · have he : d u - d (parIter p (d u - d v - 1) u) = d u - d v - 1 := by
      omega
    rw [he]

/-- Subtrees of two distinct nodes of equal depth are disjoint. -/
theorem inSub_disjoint (V : ValidParents p rt d) {c1 c2 u : Nat}
    (hd12 : d c1 = d c2) (hne : c1 ≠ c2) :
    ¬ (inSub p d c1 u ∧ inSub p d c2 u) := by
  rintro ⟨⟨h1, e1⟩, ⟨h2, e2⟩⟩
  rw [hd12] at e1
  rw [e1] at e2
  exact hne e2

theorem children_depth (V : ValidParents p rt d) {v c : Nat}
    (hv : v < p.length) (hc : c ∈ childrenOf p v) : d c = d v + 1 := by
  obtain ⟨hclt, hcp⟩ := mem_childrenOf.mp hc
  have hcne : c ≠ rt := by
    intro h0
    rw [h0, V.root_null] at hcp
    have := V.len_lt_null
    omega
  have := V.par_depth c hclt hcne
  rw [hcp] at this
  exact this

theorem not_inSub_self_child (V : ValidParents p rt d) {v c : Nat}
    (hv : v < p.length) (hc : c ∈ childrenOf p v) : ¬ inSub p d c v := by
  rintro ⟨h1, _⟩
  have := V.children_depth hv hc
  omega

theorem inSub_lt (V : ValidParents p rt d) {v u : Nat} (hu : u < p.length)
    (h : inSub p d v u) : v < p.length := by
  obtain ⟨h1, h2⟩ := h
  rw [← h2]
  exact (V.parIter_chain (d u - d v) u hu (by omega)).1

theorem inSub_depth_le (h : inSub p d v u) : d v ≤ d u := h.1

end ValidParents

/-! ### The canonical Euler tour of a subtree -/

/-- The Euler tour of the subtree of `v`: visit `v`, then for each
child its tour followed by a return to `v`.  The fuel only bounds the
recursion depth (the tree's height suffices). -/
def tourE (p : List Nat) : Nat → Nat → List Nat
  | 0, v => [v]
  | fuel + 1, v =>
      v :: ((childrenOf p v).map fun c => tourE p fuel c ++ [v]).flatten

/-- The tour with canonical fuel `n`, always sufficient for valid trees. -/
def subTour (p : List Nat) (v : Nat) : List Nat := tourE p p.length v

namespace ValidParents

variable {p : List Nat} {rt : Nat} {d : Nat → Nat}

theorem children_nil_of_max_depth (V : ValidParents p rt d) {v : Nat}
    (hv : v < p.length) (h : p.length ≤ d v + 1) : childrenOf p v = [] := by
  rcases hc : childrenOf p v with _ | ⟨c, cs⟩
  · rfl
  · exfalso
    have hmem : c ∈ childrenOf p v := by rw [hc]; exact List.mem_cons_self c cs
    have hclt := (mem_childrenOf.mp hmem).1
    have hdc := V.children_depth hv hmem
    have := V.depth_lt hclt
    omega

theorem tourE_congr (V : ValidParents p rt d) :
    ∀ f1 f2 v, v < p.length → p.length ≤ d v + f1 + 1 →
      p.length ≤ d v + f2 + 1 → tourE p f1 v = tourE p f2 v := by
  intro f1
  induction f1 with
  | zero =>
      intro f2 v hv h1 h2
      have hnil := V.children_nil_of_max_depth hv (by omega)
      cases f2 with
      | zero => rfl
      | succ f2 => simp [tourE, hnil]
  | succ f1 ih =>
      intro f2 v hv h1 h2
      cases f2 with
      | zero =>
          have hnil := V.children_nil_of_max_depth hv (by omega)
          simp [tourE, hnil]
      | succ f2 =>
          simp only [tourE, List.cons.injEq, true_and]
          congr 1
          apply List.map_congr_left
          intro c hc
          have hclt := (mem_childrenOf.mp hc).1
          have hdc := V.children_depth hv hc
          rw [ih f2 c hclt (by omega) (by omega)]

/-- Unfolding equation of the canonical-fuel tour. -/
theorem subTour_unfold (V : ValidParents p rt d) {v : Nat}
    (hv : v < p.length) :
    subTour p v =
      v :: ((childrenOf p v).map fun c => subTour p c ++ [v]).flatten := by
  unfold subTour
  obtain ⟨m, hm⟩ : ∃ m, p.length = m + 1 := ⟨p.length - 1, by omega⟩
  conv_lhs => rw [hm]
  simp only [tourE, List.cons.injEq, true_and]
  congr 1
  apply List.map_congr_left
  intro c hc
  have hclt := (mem_childrenOf.mp hc).1
  have hdc := V.children_depth hv hc
  have hdv := V.depth_lt hv
  rw [V.tourE_congr m p.length c hclt (by omega) (by omega)]

theorem subTour_head (V : ValidParents p rt d) {v : Nat}
    (hv : v < p.length) :
    ∃ tl, subTour p v = v :: tl := by
  rw [V.subTour_unfold hv]
  exact ⟨_, rfl⟩

theorem subTour_ne_nil (V : ValidParents p rt d) {v : Nat}
    (hv : v < p.length) : subTour p v ≠ [] := by
  obtain ⟨tl, htl⟩ := V.subTour_head hv
  rw [htl]
  exact List.cons_ne_nil v tl

/-- Each subtree tour ends with its root. -/
theorem subTour_ends (V : ValidParents p rt d) :
    ∀ K v, v < p.length → p.length - d v ≤ K →
      ∃ ys, subTour p v = ys ++ [v] := by
  intro K
  induction K with
  | zero =>
      intro v hv hK
      have := V.depth_lt hv
      omega
  | succ K ih =>
      intro v hv hK
      rw [V.subTour_unfold hv]
      rcases hc : childrenOf p v with _ | ⟨c0, cs0⟩
      · exact ⟨[], by simp⟩
      · -- flatten of segments, each ending in [v]
        have hall : ∀ c ∈ childrenOf p v,
            ∃ ys, subTour p c ++ [v] = ys ++ [v] := by
          intro c hcc
          exact ⟨subTour p c, rfl⟩
        have hflat : ∀ (ls : List Nat), ls ≠ [] →
            (∀ c ∈ ls, c ∈ childrenOf p v) →
            ∃ ys, ((ls.map fun c => subTour p c ++ [v]).flatten) = ys ++ [v] := by
          intro ls
          induction ls with
          | nil => intro h _; exact absurd rfl h
          | cons c cs ihc =>
              intro _ hmem
              cases cs with
              | nil =>
                  simp only [List.map_cons, List.map_nil, List.flatten_cons,
                    List.flatten_nil, List.append_nil]
                  exact ⟨subTour p c, rfl⟩
              | cons c2 cs2 =>
                  obtain ⟨ys, hys⟩ := ihc (List.cons_ne_nil c2 cs2)
                    (fun x hx => hmem x (List.mem_cons_of_mem c hx))
                  simp only [List.map_cons, List.flatten_cons] at hys ⊢
                  refine ⟨subTour p c ++ [v] ++ ys, ?_⟩
                  rw [hys]
                  simp [List.append_assoc]
        obtain ⟨ys, hys⟩ := hflat (c0 :: cs0) (List.cons_ne_nil c0 cs0)
          (fun x hx => by rw [hc]; exact hx)
        rw [← hc] at hys ⊢
        rw [hys]
        exact ⟨v :: ys, rfl⟩

/-- Membership in a subtree tour is exactly subtree membership. -/
theorem mem_subTour (V : ValidParents p rt d) :
    ∀ K v, v < p.length → p.length - d v ≤ K →
      ∀ u, u ∈ subTour p v ↔ (u < p.length ∧ inSub p d v u) := by
  intro K
  induction K with
  | zero =>
      intro v hv hK
      have := V.depth_lt hv
      omega
  | succ K ih =>
      intro v hv hK u
      rw [V.subTour_unfold hv]
      constructor
      · intro hmem
        rcases List.mem_cons.mp hmem with h | h
        · rw [h]
          exact ⟨hv, inSub_refl v⟩
        · rw [List.mem_flatten] at h
          obtain ⟨l, hl, hul⟩ := h
          rw [List.mem_map] at hl
          obtain ⟨c, hcmem, hcl⟩ := hl
          have hclt := (mem_childrenOf.mp hcmem).1
          have hdc := V.children_depth hv hcmem
          have hdvlt := V.depth_lt hv
          rw [← hcl] at hul
          rcases List.mem_append.mp hul with h2 | h2
          · have := (ih c hclt (by omega) u).mp h2
            exact ⟨this.1, V.inSub_child hv hcmem this.2 this.1⟩
          · have : u = v := List.mem_singleton.mp h2
            rw [this]
            exact ⟨hv, inSub_refl v⟩
      · rintro ⟨hu, hsub⟩
        by_cases huv : u = v
        · rw [huv]
          exact List.mem_cons_self v _
        · obtain ⟨hcmem, hcsub⟩ := V.inSub_step hv hu hsub huv
          have hclt := (mem_childrenOf.mp hcmem).1
          have hdc := V.children_depth hv hcmem
          have hdvlt := V.depth_lt hv
          have := (ih _ hclt (by omega) u).mpr ⟨hu, hcsub⟩
          apply List.mem_cons_of_mem
          rw [List.mem_flatten]
          refine ⟨subTour p (parIter p (d u - d v - 1) u) ++ [v], ?_, ?_⟩
          · rw [List.mem_map]
            exact ⟨_, hcmem, rfl⟩
          · exact List.mem_append_left _ this

end ValidParents

/-- Adjacent entries of an Euler tour are parent and child, so their
depths differ by exactly one. -/
def DStep (d : Nat → Nat) (a b : Nat) : Prop :=
  d b = d a + 1 ∨ d a = d b + 1

namespace ValidParents

variable {p : List Nat} {rt : Nat} {d : Nat → Nat}

theorem chain_subTour (V : ValidParents p rt d) :
    ∀ K v, v < p.length → p.length - d v ≤ K →
      List.Chain' (DStep d) (subTour p v) ∧
        (subTour p v).getLast? = some v := by
  intro K
  induction K with
  | zero =>
      intro v hv hK
      have := V.depth_lt hv
      omega
  | succ K ih =>
      intro v hv hK
      rw [V.subTour_unfold hv]
      suffices h : ∀ cs : List Nat, (∀ c ∈ cs, c ∈ childrenOf p v) →
          List.Chain' (DStep d)
            (v :: (cs.map fun c => subTour p c ++ [v]).flatten) ∧
          (v :: (cs.map fun c => subTour p c ++ [v]).flatten).getLast? =
            some v by
        exact h (childrenOf p v) (fun c hc => hc)
      intro cs
      induction cs with
      | nil =>
          intro _
          simp [List.chain'_singleton]
      | cons c cs ihc =>
          intro hmem
          have hcmem := hmem c (List.mem_cons_self c cs)
          have hclt := (mem_childrenOf.mp hcmem).1
          have hdc := V.children_depth hv hcmem
          have hdvlt := V.depth_lt hv
          have hrest := ihc (fun x hx => hmem x (List.mem_cons_of_mem c hx))
          obtain ⟨tl, htl⟩ := V.subTour_head hclt
          obtain ⟨ys, hys⟩ := V.subTour_ends (p.length - d c) c hclt (le_refl _)
          have hchc := (ih c hclt (by omega)).1
          have hlastc : (v :: subTour p c).getLast? = some c := by
            rw [hys, ← List.cons_append]
            exact List.getLast?_concat _
          have hassoc : v :: (((c :: cs).map fun x =>
              subTour p x ++ [v]).flatten) =
              (v :: subTour p c) ++
                (v :: (cs.map fun x => subTour p x ++ [v]).flatten) := by
            simp [List.append_assoc]
          rw [hassoc]
          constructor
          · rw [List.chain'_append]
            refine ⟨?_, hrest.1, ?_⟩
            · rw [List.chain'_cons']
              refine ⟨?_, hchc⟩
              intro y hy
              rw [htl, List.head?_cons, Option.mem_some_iff] at hy
              rw [← hy]
              left
              omega
            · intro x hx y hy
              rw [hlastc, Option.mem_some_iff] at hx
              rw [List.head?_cons, Option.mem_some_iff] at hy
              rw [← hx, ← hy]
              right
              omega
          · rw [List.getLast?_append, hrest.2]
            rfl

end ValidParents

theorem childrenOf_nodup (p : List Nat) (v : Nat) : (childrenOf p v).Nodup :=
  List.Nodup.filter _ (List.nodup_range _)

/-- Occurrence count inside the concatenated child segments of a tour. -/
theorem count_flat_eq (p : List Nat) (v u : Nat) :
    ∀ cs : List Nat,
      ((cs.map fun c => subTour p c ++ [v]).flatten).count u =
        (cs.map fun c => (subTour p c).count u).sum +
          (if v = u then cs.length else 0) := by
  intro cs
  induction cs with
  | nil => simp
  | cons c cs ihc =>
      simp only [List.map_cons, List.flatten_cons, List.count_append, ihc,
        List.sum_cons, List.length_cons]
      have hv1 : List.count u [v] = if v = u then 1 else 0 := by
        by_cases hvu : v = u <;> simp [List.count_cons, hvu]
      rw [hv1]
      split_ifs <;> omega

namespace ValidParents

variable {p : List Nat} {rt : Nat} {d : Nat → Nat}

/-- Each subtree member `u` occurs exactly `deg u + 1` times in the
subtree tour; non-members do not occur. -/
theorem count_subTour (V : ValidParents p rt d) :
    ∀ K v, v < p.length → p.length - d v ≤ K → ∀ u,
      (subTour p v).count u =
        if u < p.length ∧ inSub p d v u
        then (childrenOf p u).length + 1 else 0 := by
  intro K
  induction K with
  | zero =>
      intro v hv hK
      have := V.depth_lt hv
      omega
  | succ K ih =>
      intro v hv hK u
      have hdvlt := V.depth_lt hv
      rw [V.subTour_unfold hv, List.count_cons, count_flat_eq]
      by_cases hvu : v = u
      · subst hvu
        have hzero : ∀ x ∈ (childrenOf p v).map
            fun c => (subTour p c).count v, x = 0 := by
          intro x hx
          rw [List.mem_map] at hx
          obtain ⟨c, hcmem, hcx⟩ := hx
          have hclt := (mem_childrenOf.mp hcmem).1
          have hdc := V.children_depth hv hcmem
          rw [ih c hclt (by omega) v,
            if_neg (fun h => V.not_inSub_self_child hv hcmem h.2)] at hcx
          omega
        have hself : v < p.length ∧ inSub p d v v := ⟨hv, inSub_refl v⟩
        rw [List.sum_eq_zero hzero, if_pos rfl, if_pos hself]
        simp
      · rw [if_neg hvu]
        by_cases hcase : u < p.length ∧ inSub p d v u
        · obtain ⟨hu, hsub⟩ := hcase
          obtain ⟨hcstar, hsubstar⟩ :=
            V.inSub_step hv hu hsub (fun h => hvu h.symm)
          obtain ⟨l1, l2, hdecomp⟩ := List.append_of_mem hcstar
          have hnd := childrenOf_nodup p v
          rw [hdecomp] at hnd
          obtain ⟨hnd1, hnd2, hdisj⟩ := List.nodup_append.mp hnd
          have hstar_notmem_l2 : parIter p (d u - d v - 1) u ∉ l2 :=
            (List.nodup_cons.mp hnd2).1
          have hothers : ∀ c, c ∈ childrenOf p v →
              c ≠ parIter p (d u - d v - 1) u →
              (subTour p c).count u = 0 := by
            intro c hcmem hcne
            have hclt := (mem_childrenOf.mp hcmem).1
            have hdc := V.children_depth hv hcmem
            have hdcs := V.children_depth hv hcstar
            rw [ih c hclt (by omega) u]
            rw [if_neg]
            rintro ⟨_, hcu⟩
            exact V.inSub_disjoint (by omega) hcne ⟨hcu, hsubstar⟩
          have hstars : (subTour p (parIter p (d u - d v - 1) u)).count u =
              (childrenOf p u).length + 1 := by
            have hclt := (mem_childrenOf.mp hcstar).1
            have hdc := V.children_depth hv hcstar
            have hcond : u < p.length ∧
                inSub p d (parIter p (d u - d v - 1) u) u := ⟨hu, hsubstar⟩
            rw [ih _ hclt (by omega) u, if_pos hcond]
          have hcond2 : u < p.length ∧ inSub p d v u := ⟨hu, hsub⟩
          rw [if_pos hcond2, hdecomp]
          simp only [List.map_append, List.map_cons, List.sum_append,
            List.sum_cons]
          have hz1 : ∀ x ∈ l1.map fun c => (subTour p c).count u, x = 0 := by
            intro x hx
            rw [List.mem_map] at hx
            obtain ⟨c, hcl1, hcx⟩ := hx
            rw [← hcx]
            refine hothers c ?_ ?_
            · rw [hdecomp]
              exact List.mem_append_left _ hcl1
            · intro h
              rw [h] at hcl1
              exact (hdisj hcl1) (List.mem_cons_self _ _)
          have hz2 : ∀ x ∈ l2.map fun c => (subTour p c).count u, x = 0 := by
            intro x hx
            rw [List.mem_map] at hx
            obtain ⟨c, hcl2, hcx⟩ := hx
            rw [← hcx]
            refine hothers c ?_ ?_
            · rw [hdecomp]
              exact List.mem_append_right _ (List.mem_cons_of_mem _ hcl2)
            · intro h
              rw [h] at hcl2
              exact hstar_notmem_l2 hcl2
          rw [List.sum_eq_zero hz1, List.sum_eq_zero hz2, hstars]
          have hbu : (v == u) = false := by
            rw [beq_eq_false_iff_ne]
            exact hvu
          rw [hbu]
          simp
        · rw [if_neg hcase]
          have hzero : ∀ x ∈ (childrenOf p v).map
              fun c => (subTour p c).count u, x = 0 := by
            intro x hx
            rw [List.mem_map] at hx
            obtain ⟨c, hcmem, hcx⟩ := hx
            have hclt := (mem_childrenOf.mp hcmem).1
            have hdc := V.children_depth hv hcmem
            rw [ih c hclt (by omega) u] at hcx
            rw [if_neg] at hcx
            · omega
            · rintro ⟨h1, h2⟩
              exact hcase ⟨h1, V.inSub_child hv hcmem h2 h1⟩
          rw [List.sum_eq_zero hzero]
          have hbu : (v == u) = false := by
            rw [beq_eq_false_iff_ne]
            exact hvu
          rw [hbu]
          simp

end ValidParents

/-- The length of a list of small naturals is the sum of its counts. -/
theorem length_eq_sum_count (m : Nat) :
    ∀ l : List Nat, (∀ x ∈ l, x < m) →
      ∑ u ∈ Finset.range m, l.count u = l.length := by
  intro l
  induction l with
  | nil => simp
  | cons a l ih =>
      intro h
      have ha : a < m := h a (List.mem_cons_self a l)
      have hcong : ∀ u ∈ Finset.range m,
          (a :: l).count u = l.count u + if a = u then 1 else 0 := by
        intro u _
        rw [List.count_cons]
        by_cases hua : a = u <;> simp [hua]
      rw [Finset.sum_congr rfl hcong, Finset.sum_add_distrib,
        ih (fun x hx => h x (List.mem_cons_of_mem a hx)), Finset.sum_ite_eq]
      simp [ha]

/-- Bridge between the list-level filter of `Tree::from_parents` and
Finset cardinalities. -/
theorem filter_range_length (pr : Nat → Prop) [DecidablePred pr] :
    ∀ m, ((List.range m).filter fun x => decide (pr x)).length =
      ((Finset.range m).filter pr).card := by
  intro m
  induction m with
  | zero => simp
  | succ m ih =>
      rw [List.range_succ, List.filter_append, List.length_append, ih,
        Finset.range_succ, Finset.filter_insert]
      by_cases hm : pr m
      · rw [if_pos hm, Finset.card_insert_of_not_mem (by simp)]
        simp [hm]
      · rw [if_neg hm]
        simp [hm]

theorem childrenOf_length_card (p : List Nat) (u : Nat) :
    (childrenOf p u).length =
      ((Finset.range p.length).filter
        fun c => p.getD c NULL_NODE = u).card :=
  filter_range_length (fun c => p.getD c NULL_NODE = u) p.length

namespace ValidParents

variable {p : List Nat} {rt : Nat} {d : Nat → Nat}

/-- Every non-root node appears in exactly one children list, so the
degrees over all nodes sum to `n - 1`. -/
theorem degree_sum (V : ValidParents p rt d) (hn : 1 ≤ p.length) :
    ∑ u ∈ Finset.range p.length, (childrenOf p u).length =
      p.length - 1 := by
  have hmapsto : ∀ c ∈ (Finset.range p.length).filter fun c => c ≠ rt,
      p.getD c NULL_NODE ∈ Finset.range p.length := by
    intro c hc
    rw [Finset.mem_filter, Finset.mem_range] at hc
    exact Finset.mem_range.mpr (V.par_lt c hc.1 hc.2)
  have hfib := Finset.card_eq_sum_card_fiberwise hmapsto
  have hscard : ((Finset.range p.length).filter fun c => c ≠ rt).card =
      p.length - 1 := by
    rw [Finset.filter_ne',
      Finset.card_erase_of_mem (Finset.mem_range.mpr V.root_lt),
      Finset.card_range]
  have hfiber : ∀ u ∈ Finset.range p.length,
      (((Finset.range p.length).filter fun c => c ≠ rt).filter
          fun c => p.getD c NULL_NODE = u) =
        ((Finset.range p.length).filter
          fun c => p.getD c NULL_NODE = u) := by
    intro u hu
    rw [Finset.mem_range] at hu
    rw [Finset.filter_filter]
    apply Finset.filter_congr
    intro c hc
    rw [Finset.mem_range] at hc
    constructor
    · rintro ⟨_, h2⟩
      exact h2
    · intro h2
      refine ⟨?_, h2⟩
      intro hcrt
      rw [hcrt, V.root_null] at h2
      have := V.len_lt_null
      omega
  have hsum : ∀ u ∈ Finset.range p.length, (childrenOf p u).length =
      (((Finset.range p.length).filter fun c => c ≠ rt).filter
        fun c => p.getD c NULL_NODE = u).card := by
    intro u hu
    rw [childrenOf_length_card, hfiber u hu]
  rw [Finset.sum_congr rfl hsum, ← hfib, hscard]

/-- The whole-tree Euler tour visits only in-range nodes. -/
theorem subTour_root_mem (V : ValidParents p rt d) :
    ∀ x ∈ subTour p rt, x < p.length := by
  intro x hx
  exact ((V.mem_subTour (p.length - d rt) rt V.root_lt (le_refl _) x).mp
    hx).1

/-- The Euler tour of the whole tree has length `2n - 1`. -/
theorem subTour_root_length (V : ValidParents p rt d) (hn : 1 ≤ p.length) :
    (subTour p rt).length = 2 * p.length - 1 := by
  have hmem : ∀ x ∈ subTour p rt, x < p.length := by
    intro x hx
    exact ((V.mem_subTour (p.length - d rt) rt V.root_lt (le_refl _) x).mp
      hx).1
  rw [← length_eq_sum_count p.length _ hmem]
  have hcnt : ∀ u ∈ Finset.range p.length,
      (subTour p rt).count u = (childrenOf p u).length + 1 := by
    intro u hu
    rw [Finset.mem_range] at hu
    rw [V.count_subTour (p.length - d rt) rt V.root_lt (le_refl _) u,
      if_pos ⟨hu, V.inSub_root hu⟩]
  rw [Finset.sum_congr rfl hcnt, Finset.sum_add_distrib, V.degree_sum hn]
  simp only [Finset.sum_const, Finset.card_range, smul_eq_mul, mul_one]
  omega

end ValidParents

/-! ### The DFS loop as a whole: auxiliary operations -/

/-- The partially-consumed tour of `v`: `v`, then for each remaining
child its subtree tour followed by a return to `v`.  With the full
children list this is exactly `subTour`. -/
def partTour (p : List Nat) (v : Nat) (cs : List Nat) : List Nat :=
  v :: (cs.map fun c => subTour p c ++ [v]).flatten

theorem partTour_nil (p : List Nat) (v : Nat) : partTour p v [] = [v] := by
  simp [partTour]

theorem partTour_cons (p : List Nat) (v c : Nat) (cs : List Nat) :
    partTour p v (c :: cs) = (v :: subTour p c) ++ partTour p v cs := by
  simp [partTour]

theorem partTour_full {p : List Nat} {rt : Nat} {d : Nat → Nat} {v : Nat}
    (V : ValidParents p rt d) (hv : v < p.length) :
    partTour p v (childrenOf p v) = subTour p v :=
  (V.subTour_unfold hv).symm

/-- The cumulative effect of the loop's `r[v] = e.len()` writes while a
tour segment `t` is appended to `e` starting at offset `off`. -/
def rWrite (r : List Nat) (off : Nat) : List Nat → List Nat
  | [] => r
  | a :: t => rWrite (r.set a off) (off + 1) t

theorem rWrite_append :
    ∀ a b : List Nat, ∀ r off,
      rWrite r off (a ++ b) = rWrite (rWrite r off a) (off + a.length) b := by
  intro a
  induction a with
  | nil =>
      intro b r off
      simp [rWrite]
  | cons x a ih =>
      intro b r off
      simp only [List.cons_append, rWrite, List.length_cons, List.append_eq]
      rw [ih b (r.set x off) (off + 1)]
      congr 1
      omega

theorem rWrite_length (t : List Nat) :
    ∀ r off, (rWrite r off t).length = r.length := by
  induction t with
  | nil => intro r off; rfl
  | cons a t ih =>
      intro r off
      simp only [rWrite, ih, List.length_set]

/-- The index of the last occurrence of `u` in a list (meaningful when
`u` occurs at all). -/
def lastIdx (u : Nat) : List Nat → Nat
  | [] => 0
  | _ :: t => if u ∈ t then 1 + lastIdx u t else 0

theorem lastIdx_getD (u : Nat) :
    ∀ t : List Nat, u ∈ t →
      lastIdx u t < t.length ∧ t.getD (lastIdx u t) 0 = u := by
  intro t
  induction t with
  | nil => intro h; cases h
  | cons a t ih =>
      intro h
      by_cases hm : u ∈ t
      · obtain ⟨ih1, ih2⟩ := ih hm
        simp only [lastIdx, if_pos hm, List.length_cons]
        constructor
        · omega
        · rw [(by omega : 1 + lastIdx u t = lastIdx u t + 1)]
          simpa using ih2
      · have ha : a = u := by
          rcases List.mem_cons.mp h with h1 | h1
          · exact h1.symm
          · exact absurd h1 hm
        simp [lastIdx, if_neg hm, ha]

theorem lastIdx_maximal (u : Nat) :
    ∀ t : List Nat, ∀ k < t.length, t.getD k 0 = u → k ≤ lastIdx u t := by
  intro t
  induction t with
  | nil => intro k hk; exact absurd hk (by simp)
  | cons a t ih =>
      intro k hk hget
      cases k with
      | zero => omega
      | succ j =>
          simp only [List.length_cons] at hk
          have hjlt : j < t.length := by omega
          have hget' : t.getD j 0 = u := by
            simpa using hget
          have hm : u ∈ t := by
            rw [← hget']
            rw [List.getD_eq_getElem t 0 hjlt]
            exact List.getElem_mem hjlt
          have := ih j hjlt hget'
          simp only [lastIdx, if_pos hm]
          omega

theorem getD_set_self (l : List Nat) (i x : Nat) (h : i < l.length) :
    (l.set i x).getD i 0 = x := by
  rw [List.getD_eq_getElem (l.set i x) 0 (by simpa using h)]
  simp [List.getElem_set, h]

theorem getD_set_ne (l : List Nat) (i j x : Nat) (h : i ≠ j) :
    (l.set i x).getD j 0 = l.getD j 0 := by
  by_cases hj : j < l.length
  · rw [List.getD_eq_getElem (l.set i x) 0 (by simpa using hj),
      List.getD_eq_getElem l 0 hj]
    simp [List.getElem_set, h]
  · rw [List.getD_eq_default (l.set i x) 0 (by simpa using hj),
      List.getD_eq_default l 0 (by omega)]

/-- `rWrite` leaves untouched entries alone and records the last write
position of each touched entry. -/
theorem rWrite_getD (u : Nat) :
    ∀ t : List Nat, ∀ r off, u < r.length →
      (rWrite r off t).getD u 0 =
        if u ∈ t then off + lastIdx u t else r.getD u 0 := by
  intro t
  induction t with
  | nil => intro r off _; simp [rWrite]
  | cons a t ih =>
      intro r off hu
      simp only [rWrite]
      rw [ih (r.set a off) (off + 1) (by simpa using hu)]
      by_cases hm : u ∈ t
      · rw [if_pos hm, if_pos (List.mem_cons_of_mem a hm)]
        simp only [lastIdx, if_pos hm]
        omega
      · rw [if_neg hm]
        by_cases ha : a = u
        · subst ha
          rw [getD_set_self r a off hu,
            if_pos (List.mem_cons_self a t)]
          simp [lastIdx, hm]
        · rw [getD_set_ne r a u off ha, if_neg]
          intro hmem
          rcases List.mem_cons.mp hmem with h1 | h1
          · exact ha h1.symm
          · exact hm h1

/-- With validity, the root scan of `Tree::from_parents` finds the root. -/
theorem rootOf_eq {p : List Nat} {rt : Nat} {d : Nat → Nat}
    (V : ValidParents p rt d) : rootOf p = rt := by
  have key : ∀ m, m ≤ p.length →
      (List.range m).foldl
        (fun r u => if p.getD u NULL_NODE = NULL_NODE then u else r)
        NULL_NODE = if rt < m then rt else NULL_NODE := by
    intro m
    induction m with
    | zero => intro _; simp
    | succ m ih =>
        intro hm
        rw [List.range_succ, List.foldl_append, ih (by omega)]
        simp only [List.foldl_cons, List.foldl_nil]
        by_cases hmr : m = rt
        · subst hmr
          rw [if_pos V.root_null, if_pos (by omega)]
        · have hnn : p.getD m NULL_NODE ≠ NULL_NODE := by
            intro h
            exact hmr (V.null_unique m (by omega) h)
          rw [if_neg hnn]
          by_cases hlt : rt < m
          · rw [if_pos hlt, if_pos (by omega)]
          · rw [if_neg hlt, if_neg (by omega)]
  have := key p.length (le_refl _)
  rw [if_pos V.root_lt] at this
  exact this

/-- Once the stack is empty the DFS loop does nothing. -/
theorem dfs_run_nil (p : List Nat) :
    ∀ fuel (s : DfsState), s.stack = [] → dfs_run p fuel s = s := by
  intro fuel
  cases fuel with
  | zero => intro s _; rfl
  | succ f =>
      intro s hs
      simp only [dfs_run, hs]

/-- One iteration of the DFS loop, with the two branches spelled out. -/
theorem dfs_run_step (p : List Nat) (f : Nat) (s : DfsState) (v : Nat)
    (rest : List Nat) (h : s.stack = v :: rest) :
    dfs_run p (f + 1) s =
      if s.ch.getD v 0 < (childrenOf p v).length then
        dfs_run p f
          ⟨s.e ++ [v], s.l ++ [rest.length + 1], s.r.set v s.e.length,
            s.ch.set v (s.ch.getD v 0 + 1),
            (childrenOf p v).getD (s.ch.getD v 0) 0 :: v :: rest⟩
      else
        dfs_run p f
          ⟨s.e ++ [v], s.l ++ [rest.length + 1], s.r.set v s.e.length,
            s.ch, rest⟩ := by
  obtain ⟨se, sl, sr, sch, sstack⟩ := s
  simp only at h
  subst h
  simp only [dfs_run, List.length_cons]

theorem rWrite_cons (r : List Nat) (off a : Nat) (t : List Nat) :
    rWrite r off (a :: t) = rWrite (r.set a off) (off + 1) t := rfl

namespace ValidParents

variable {p : List Nat} {rt : Nat} {d : Nat → Nat}

/-- The central DFS lemma: with the top of the stack at `v` and the
child cursor of `v` at `j` (subtrees of the remaining children still
unvisited), the loop appends exactly the partial tour of `v` to `e`,
the corresponding stack heights to `l`, overwrites `r` along the tour,
and pops `v` — consuming one unit of fuel per tour element. -/
theorem dfs_run_spec (V : ValidParents p rt d) :
    ∀ K, ∀ v, v < p.length → p.length - d v ≤ K →
    ∀ cs : List Nat, ∀ j, (childrenOf p v).drop j = cs →
    ∀ s : DfsState, ∀ rest fuel, s.stack = v :: rest →
      s.ch.length = p.length →
      s.ch.getD v 0 = j →
      (∀ c' ∈ cs, ∀ u, u < p.length → inSub p d c' u →
        s.ch.getD u 0 = 0) →
      (partTour p v cs).length ≤ fuel →
      ∃ ch', dfs_run p fuel s =
          dfs_run p (fuel - (partTour p v cs).length)
            { e := s.e ++ partTour p v cs,
              l := s.l ++ (partTour p v cs).map
                (fun u => rest.length + 1 + (d u - d v)),
              r := rWrite s.r s.e.length (partTour p v cs),
              ch := ch', stack := rest } ∧
        ch'.length = p.length ∧
        ∀ u, u < p.length → ¬ inSub p d v u →
          ch'.getD u 0 = s.ch.getD u 0 := by
  intro K
  induction K with
  | zero =>
      intro v hv hK
      have := V.depth_lt hv
      omega
  | succ K ih =>
      intro v hv hK cs
      induction cs with
      | nil =>
          intro j hdrop s rest fuel hstack hchlen hchv hfresh hfuel
          have hjge : (childrenOf p v).length ≤ j := by
            by_contra hlt
            push_neg at hlt
            rw [List.drop_eq_getElem_cons hlt] at hdrop
            cases hdrop
          have h1 : (partTour p v []).length = 1 := by
            rw [partTour_nil]
            rfl
          rw [h1] at hfuel
          obtain ⟨f, rfl⟩ : ∃ f, fuel = f + 1 := ⟨fuel - 1, by omega⟩
          refine ⟨s.ch, ?_, hchlen, fun u _ _ => rfl⟩
          rw [dfs_run_step p f s v rest hstack,
            if_neg (by rw [hchv]; omega), h1, Nat.add_sub_cancel,
            partTour_nil]
          simp [rWrite, Nat.sub_self]
      | cons c cs' ihc =>
          intro j hdrop s rest fuel hstack hchlen hchv hfresh hfuel
          have hdvlt := V.depth_lt hv
          have hjlt : j < (childrenOf p v).length := by
            by_contra hge
            push_neg at hge
            rw [List.drop_eq_nil_of_le hge] at hdrop
            cases hdrop
          have hdecomp := List.drop_eq_getElem_cons hjlt
          rw [hdrop] at hdecomp
          injection hdecomp with hget hdrop'
          have hcmem : c ∈ childrenOf p v := by
            rw [hget]; exact List.getElem_mem hjlt
          have hclt : c < p.length := (mem_childrenOf.mp hcmem).1
          have hdc : d c = d v + 1 := V.children_depth hv hcmem
          have hcnev : c ≠ v := by
            intro h; rw [h] at hdc; omega
          have hlen1 : (partTour p v (c :: cs')).length =
              1 + (subTour p c).length + (partTour p v cs').length := by
            rw [partTour_cons]
            simp only [List.length_append, List.length_cons]
            omega
          have hlen2 : 1 ≤ (partTour p v cs').length :=
            Nat.succ_le_succ (Nat.zero_le _)
          obtain ⟨f, rfl⟩ : ∃ f, fuel = f + 1 := ⟨fuel - 1, by omega⟩
          have hcond : s.ch.getD v 0 < (childrenOf p v).length := by
            rw [hchv]; exact hjlt
          have hgetD : (childrenOf p v).getD (s.ch.getD v 0) 0 = c := by
            rw [hchv, List.getD_eq_getElem _ _ hjlt, ← hget]
          have hstep := dfs_run_step p f s v rest hstack
          rw [if_pos hcond, hgetD, hchv] at hstep
          have hne_v : ∀ u, inSub p d c u → u ≠ v := by
            intro u hsubu hne
            have h1 := hsubu.1
            rw [hne] at h1
            omega
          obtain ⟨ch1, heq1, hlenc1, hfree1⟩ :=
            ih c hclt (by omega) (childrenOf p c) 0 rfl
              ⟨s.e ++ [v], s.l ++ [rest.length + 1],
                s.r.set v s.e.length, s.ch.set v (j + 1),
                c :: v :: rest⟩
              (v :: rest) f rfl
              (by simp [hchlen])
              (by
                show (s.ch.set v (j + 1)).getD c 0 = 0
                rw [getD_set_ne s.ch v c (j + 1) (Ne.symm hcnev)]
                exact hfresh c (List.mem_cons_self c cs') c hclt
                  (inSub_refl c))
              (by
                intro c2 hc2 u hu hsubu
                show (s.ch.set v (j + 1)).getD u 0 = 0
                have hsubcu : inSub p d c u :=
                  V.inSub_child hclt hc2 hsubu hu
                rw [getD_set_ne s.ch v u (j + 1)
                  (fun h => (hne_v u hsubcu) h.symm)]
                exact hfresh c (List.mem_cons_self c cs') u hu hsubcu)
              (by rw [partTour_full V hclt]; omega)
          rw [partTour_full V hclt] at heq1
          have hch1v : ch1.getD v 0 = j + 1 := by
            rw [hfree1 v hv (V.not_inSub_self_child hv hcmem)]
            exact getD_set_self s.ch v (j + 1) (by rw [hchlen]; exact hv)
          have hcs'mem : ∀ c2 ∈ cs', c2 ∈ childrenOf p v := by
            intro c2 hc2
            rw [hdrop'] at hc2
            exact (List.drop_sublist _ _).mem hc2
          have hcnotcs' : c ∉ cs' := by
            have hnd : ((childrenOf p v).drop j).Nodup :=
              (List.drop_sublist _ _).nodup (childrenOf_nodup p v)
            rw [hdrop] at hnd
            exact (List.nodup_cons.mp hnd).1
          obtain ⟨ch2, heq2, hlenc2, hfree2⟩ :=
            ihc (j + 1) hdrop'.symm
              ⟨(s.e ++ [v]) ++ subTour p c,
                (s.l ++ [rest.length + 1]) ++ (subTour p c).map
                  (fun u => (v :: rest).length + 1 + (d u - d c)),
                rWrite (s.r.set v s.e.length) (s.e ++ [v]).length
                  (subTour p c),
                ch1, v :: rest⟩
              rest (f - (subTour p c).length) rfl hlenc1 hch1v
              (by
                intro c2 hc2 u hu hsubu
                show ch1.getD u 0 = 0
                have hc2mem : c2 ∈ childrenOf p v := hcs'mem c2 hc2
                have hdc2 : d c2 = d v + 1 := V.children_depth hv hc2mem
                have hc2ne : c2 ≠ c := by
                  intro h; rw [h] at hc2; exact hcnotcs' hc2
                have hnotc : ¬ inSub p d c u := by
                  intro hcu
                  exact V.inSub_disjoint (by omega : d c2 = d c) hc2ne
                    ⟨hsubu, hcu⟩
                rw [hfree1 u hu hnotc]
                show (s.ch.set v (j + 1)).getD u 0 = 0
                have hune : u ≠ v := by
                  intro h
                  have h1 := hsubu.1
                  rw [h] at h1
                  omega
                rw [getD_set_ne s.ch v u (j + 1) (fun h => hune h.symm)]
                exact hfresh c2 (List.mem_cons_of_mem c hc2) u hu hsubu)
              (by omega)
          have hmapT : (subTour p c).map
              (fun u => rest.length + 1 + (d u - d v)) =
              (subTour p c).map
                (fun u => (v :: rest).length + 1 + (d u - d c)) := by
            apply List.map_congr_left
            intro u hu
            have hdcu : d c ≤ d u :=
              ((V.mem_subTour p.length c hclt (by omega) u).mp hu).2.1
            simp only [List.length_cons]
            omega
          refine ⟨ch2, ?_, hlenc2, ?_⟩
          · rw [hstep, heq1, heq2, partTour_cons]
            have hfe : f - (subTour p c).length -
                (partTour p v cs').length =
                f + 1 - ((v :: subTour p c) ++ partTour p v cs').length := by
              simp only [List.length_append, List.length_cons]
              omega
            rw [hfe]
            congr 1
            rw [List.map_append, List.map_cons, hmapT]
            simp only [List.append_assoc, List.singleton_append,
              List.cons_append, List.nil_append, List.map_append,
              List.map_cons, List.length_append, List.length_cons,
              List.length_nil, rWrite_cons, rWrite_append, Nat.sub_self,
              Nat.add_zero, Nat.zero_add, Nat.add_comm, Nat.add_assoc,
              Nat.add_left_comm]
          · intro u hu hnotv
            have hunev : u ≠ v := by
              intro h
              rw [h] at hnotv
              exact hnotv (inSub_refl v)
            have h1 : ch2.getD u 0 = ch1.getD u 0 :=
              hfree2 u hu hnotv
            have h2 : ch1.getD u 0 = (s.ch.set v (j + 1)).getD u 0 :=
              hfree1 u hu
                (fun hcu => hnotv (V.inSub_child hv hcmem hcu hu))
            rw [h1, h2,
              getD_set_ne s.ch v u (j + 1) (fun h => hunev h.symm)]

/-- `Tree::euler_tour` on a valid tree produces exactly the canonical
tour: `e` is the subtree tour of the root, `l` its stack heights, and
`r` the fold of the per-visit `r[v] = e.len()` writes along the tour. -/
theorem euler_tour_eq (V : ValidParents p rt d) (hn : 1 ≤ p.length) :
    (euler_tour p).e = subTour p rt ∧
    (euler_tour p).l = (subTour p rt).map (fun u => 1 + (d u - d rt)) ∧
    (euler_tour p).r =
      rWrite (List.replicate p.length 0) 0 (subTour p rt) := by
  have hroot := rootOf_eq V
  have hlen := V.subTour_root_length hn
  obtain ⟨ch', heq, _, _⟩ :=
    V.dfs_run_spec (p.length - d rt) rt V.root_lt (le_refl _)
      (childrenOf p rt) 0 rfl
      ⟨[], [], List.replicate p.length 0, List.replicate p.length 0,
        [rt]⟩
      [] (2 * p.length) rfl
      (by simp)
      (by simp)
      (by intro c' _ u hu _; simp)
      (by rw [partTour_full V V.root_lt, hlen]; omega)
  rw [partTour_full V V.root_lt] at heq
  have hrun : dfs_run p (2 * p.length)
      ⟨[], [], List.replicate p.length 0, List.replicate p.length 0,
        [rt]⟩ =
      ⟨subTour p rt,
        (subTour p rt).map (fun u => 1 + (d u - d rt)),
        rWrite (List.replicate p.length 0) 0 (subTour p rt), ch',
        []⟩ := by
    rw [heq, dfs_run_nil p]
    · simp
    · rfl
  have h0 : euler_tour p =
      ⟨(dfs_run p (2 * p.length)
          ⟨[], [], List.replicate p.length 0, List.replicate p.length 0,
            [rootOf p]⟩).e,
        (dfs_run p (2 * p.length)
          ⟨[], [], List.replicate p.length 0, List.replicate p.length 0,
            [rootOf p]⟩).l,
        (dfs_run p (2 * p.length)
          ⟨[], [], List.replicate p.length 0, List.replicate p.length 0,
            [rootOf p]⟩).r⟩ := rfl
  rw [h0, hroot, hrun]
  exact ⟨rfl, rfl, rfl⟩

end ValidParents

/-- **C5 (amended)**: on every valid tree, `r[u]` is the index of the
*last* occurrence of `u` in the Euler sequence `e` (the DFS overwrites
`r[v]` on every visit), matching the field's doc comment in `tree.rs`
rather than the spec's "first visit". -/
theorem C5_r_last_occurrence (p : List Nat) (rt : Nat) (d : Nat → Nat)
    (V : ValidParents p rt d) (u : Nat) (hu : u < p.length) :
    (euler_tour p).r.getD u 0 < (euler_tour p).e.length ∧
    (euler_tour p).e.getD ((euler_tour p).r.getD u 0) 0 = u ∧
    ∀ k < (euler_tour p).e.length, (euler_tour p).e.getD k 0 = u →
      k ≤ (euler_tour p).r.getD u 0 := by
  have hn : 1 ≤ p.length := by omega
  obtain ⟨he, hl, hr⟩ := V.euler_tour_eq hn
  have hmem : u ∈ subTour p rt :=
    (V.mem_subTour p.length rt V.root_lt (by omega) u).mpr
      ⟨hu, V.inSub_root hu⟩
  have hrepl : u < (List.replicate p.length 0).length := by
    simpa using hu
  have hval : (euler_tour p).r.getD u 0 = lastIdx u (subTour p rt) := by
    rw [hr, rWrite_getD u (subTour p rt) _ 0 hrepl, if_pos hmem,
      Nat.zero_add]
  obtain ⟨hlt, hgd⟩ := lastIdx_getD u (subTour p rt) hmem
  refine ⟨?_, ?_, ?_⟩
  · rw [hval, he]; exact hlt
  · rw [hval, he]; exact hgd
  · intro k hk hke
    rw [hval]
    rw [he] at hk hke
    exact lastIdx_maximal u (subTour p rt) k hk hke

theorem C5_amended_witness :
    ((euler_tour [NULL_NODE, 0, 0]).r.getD 1 0 <
        (euler_tour [NULL_NODE, 0, 0]).e.length ∧
      (euler_tour [NULL_NODE, 0, 0]).e.getD
        ((euler_tour [NULL_NODE, 0, 0]).r.getD 1 0) 0 = 1 ∧
      ∀ k < (euler_tour [NULL_NODE, 0, 0]).e.length,
        (euler_tour [NULL_NODE, 0, 0]).e.getD k 0 = 1 →
          k ≤ (euler_tour [NULL_NODE, 0, 0]).r.getD 1 0) :=
  C5_r_last_occurrence [NULL_NODE, 0, 0] 0
    (fun u => if u = 0 then 0 else 1)
    ⟨by decide, by decide, by decide, by decide, by decide, by decide,
      by decide⟩
    1 (by decide)

/-- **C6**: on every valid tree with `n ≥ 1` nodes, `Tree::euler_tour`
produces `e` and `l` of length exactly `2n - 1`, and consecutive
entries of `l` differ by exactly 1. -/
theorem C6_euler_tour_shape (p : List Nat) (rt : Nat) (d : Nat → Nat)
    (V : ValidParents p rt d) (hn : 1 ≤ p.length) :
    (euler_tour p).e.length = 2 * p.length - 1 ∧
    (euler_tour p).l.length = 2 * p.length - 1 ∧
    List.Chain' (fun a b => b = a + 1 ∨ a = b + 1) (euler_tour p).l := by
  obtain ⟨he, hl, hr⟩ := V.euler_tour_eq hn
  have hlen := V.subTour_root_length hn
  have h0 := V.root_depth
  refine ⟨by rw [he]; exact hlen,
    by rw [hl, List.length_map]; exact hlen, ?_⟩
  rw [hl]
  have hchain :=
    (V.chain_subTour (p.length - d rt) rt V.root_lt (le_refl _)).1
  rw [List.chain'_map]
  apply List.Chain'.imp ?_ hchain
  intro a b hab
  rcases hab with h | h
  · left; omega
  · right; omega

theorem C6_witness :
    ((euler_tour [NULL_NODE, 0, 0]).e.length =
        2 * [NULL_NODE, 0, 0].length - 1 ∧
      (euler_tour [NULL_NODE, 0, 0]).l.length =
        2 * [NULL_NODE, 0, 0].length - 1 ∧
      List.Chain' (fun a b => b = a + 1 ∨ a = b + 1)
        (euler_tour [NULL_NODE, 0, 0]).l) :=
  C6_euler_tour_shape [NULL_NODE, 0, 0] 0
    (fun u => if u = 0 then 0 else 1)
    ⟨by decide, by decide, by decide, by decide, by decide, by decide,
      by decide⟩
    (by decide)

end RMQ
